import Mathlib

set_option maxRecDepth 100000

namespace PayTracker

/-! # Embedding of the PayTracker extension core

Shallow embedding of the extraction-and-repair pipeline and the
cache/sync store of the PayTracker browser extension.  Strings are
modelled as `List Char` (with `String` wrappers where convenient);
JavaScript regular-expression matching is modelled by explicit
backtracking functions mirroring the engine's greedy, leftmost-match
semantics on the concrete patterns appearing in the source.
-/

/-- Character-class test for the regex class `[A-Z0-9]`. -/
def isUA (c : Char) : Bool :=
  (65 ≤ c.toNat && c.toNat ≤ 90) || (48 ≤ c.toNat && c.toNat ≤ 57)

/-- Character-class test for the regex class `\d`, i.e. `[0-9]`. -/
def isDigitC (c : Char) : Bool :=
  48 ≤ c.toNat && c.toNat ≤ 57

/-- Character-class test for the regex `.` metacharacter, which in
JavaScript (without the `s` flag) matches any character except a line
terminator (U+000A, U+000D, U+2028, U+2029). -/
def isDot (c : Char) : Bool :=
  !(c.toNat == 10 || c.toNat == 13 || c.toNat == 0x2028 || c.toNat == 0x2029)

/-- Backtracking search for the `\2{10,}` part of the run-length regexes of
`fixCorruptedTransactionId`.  The caller passes the length of the maximal
run of the group-2 character at the start of `rest`; the greedy repetition
tries the largest count first and counts down to 10.  For a candidate count
the remainder of the input must have between `smin` and `smax` characters,
all in `[A-Z0-9]`, mirroring the end-anchored suffix group. -/
def tryRun (rest : List Char) (smin smax : Nat) : Nat → Option (List Char)
  | 0 => none
  | k + 1 =>
    if k + 1 < 10 then none
    else
      if smin ≤ (rest.drop (k + 1)).length && (rest.drop (k + 1)).length ≤ smax &&
          (rest.drop (k + 1)).all isUA then
        some (rest.drop (k + 1))
      else tryRun rest smin smax k

/-- Attempt to match one of the run-length regexes with the prefix group
fixed at `p` characters: `p` characters of `[A-Z0-9]`, one `[A-Z0-9]`
group-2 character, 11-or-more repetitions of that character (the group plus
`\2{10,}`), and an all-`[A-Z0-9]` suffix of `smin`–`smax` characters ending
the string. -/
def tryPre (s : List Char) (smin smax p : Nat) : Option (List Char × Char × List Char) :=
  let pre := s.take p
  if pre.length == p && pre.all isUA then
    match s.drop p with
    | [] => none
    | c :: rest =>
      if isUA c then
        match tryRun rest smin smax (rest.takeWhile (· == c)).length with
        | some suf => some (pre, c, suf)
        | none => none
      else none
  else none

/-- JavaScript match of `/^([A-Z0-9]{3,6})([A-Z0-9])\2{10,}([A-Z0-9]{3,6})$/`
(pattern 1 of `fixCorruptedTransactionId`): the greedy prefix group tries
lengths 6 down to 3, and the first overall match wins. -/
def matchPattern1 (s : List Char) : Option (List Char × Char × List Char) :=
  tryPre s 3 6 6 <|> tryPre s 3 6 5 <|> tryPre s 3 6 4 <|> tryPre s 3 6 3

/-- JavaScript match of `/^([A-Z0-9]{1,3})([A-Z0-9])\2{10,}([A-Z0-9]{7,10})$/`
(pattern 2 of `fixCorruptedTransactionId`): greedy prefix group lengths 3
down to 1. -/
def matchPattern2 (s : List Char) : Option (List Char × Char × List Char) :=
  tryPre s 7 10 3 <|> tryPre s 7 10 2 <|> tryPre s 7 10 1

/-- Pattern-1 branch of `fixCorruptedTransactionId`: on a match, the
hard-coded historical exception for prefix `EEP8`, repeated char `6`,
suffix `NRJ4C`; otherwise the generic decrement-the-repeated-character
rule, accepted only if the reconstruction is 13 characters of `[A-Z0-9]`.
A `none` result means control falls through to the next pattern. -/
def pattern1 (s : List Char) : Option (List Char) :=
  match matchPattern1 s with
  | none => none
  | some (pre, c, suf) =>
    if c == '6' && pre == "EEP8".data && suf == "NRJ4C".data then
      some "EEP86556NRJ4C".data
    else
      if (pre ++ Char.ofNat (c.toNat - 1) :: suf).length == 13 &&
          (pre ++ Char.ofNat (c.toNat - 1) :: suf).all isUA then
        some (pre ++ Char.ofNat (c.toNat - 1) :: suf)
      else none

/-- The fixed list of previously observed middle segments used by the
character-flooding strategy. -/
def commonMiddles : List (List Char) :=
  ["61C".data, "556".data, "86".data, "123".data, "001".data, "999".data]

/-- Pattern-2 branch of `fixCorruptedTransactionId`: on a character-flooding
match, try the common middle segments in order and accept the first one
whose length equals the gap `13 - |pre| - |suf|`. -/
def pattern2 (s : List Char) : Option (List Char) :=
  match matchPattern2 s with
  | none => none
  | some (pre, _, suf) =>
    match commonMiddles.find? (fun m => m.length == 13 - pre.length - suf.length) with
    | some mid =>
      if (pre ++ mid ++ suf).length == 13 then some (pre ++ mid ++ suf) else none
    | none => none

/-- Pattern-3 branch of `fixCorruptedTransactionId`: with six or more
leading zeros (`/^0{6,}/`), replace the whole leading-zero run with the
recovery token `08` (`replace(/^0+/, '08')`) and accept only a
13-character result. -/
def pattern3 (s : List Char) : Option (List Char) :=
  if 6 ≤ (s.takeWhile (· == '0')).length then
    if ('0' :: '8' :: s.dropWhile (· == '0')).length == 13 then
      some ('0' :: '8' :: s.dropWhile (· == '0'))
    else none
  else none

/-- Test for the regex `/(.)\1{5,}/`: some character (other than a line
terminator) occurs six or more times in a row. -/
def hasRun6 : List Char → Bool
  | [] => false
  | c :: t => (isDot c && (t.take 5).length == 5 && (t.take 5).all (· == c)) || hasRun6 t

/-- Fuel-driven scan for `/[A-Z0-9]{13}/g`: successive non-overlapping
13-character `[A-Z0-9]` runs, each found at the leftmost position at or
after the end of the previous match.  `fuel ≥ length` makes the scan
total. -/
def scan13Aux : Nat → List Char → List (List Char)
  | 0, _ => []
  | _ + 1, [] => []
  | f + 1, c :: t =>
    if ((c :: t).take 13).length == 13 && ((c :: t).take 13).all isUA then
      (c :: t).take 13 :: scan13Aux f ((c :: t).drop 13)
    else scan13Aux f t

/-- All matches of `/[A-Z0-9]{13}/g` on `s`, in order. -/
def scan13 (s : List Char) : List (List Char) :=
  scan13Aux s.length s

/-- Pattern-4 branch of `fixCorruptedTransactionId`: the first 13-character
`[A-Z0-9]` run that does not itself contain a six-or-longer repeated
character run. -/
def pattern4 (s : List Char) : Option (List Char) :=
  (scan13 s).find? (fun m => !hasRun6 m)

/-- The identifier repair engine `fixCorruptedTransactionId` from the page
extractor: reject inputs shorter than 13 characters, then apply patterns
1–4 in order, falling through to the next pattern whenever the previous
one does not return. -/
def fixCorruptedL (s : List Char) : Option (List Char) :=
  if s.length < 13 then none
  else pattern1 s <|> pattern2 s <|> pattern3 s <|> pattern4 s

/-- String-level wrapper of the identifier repair engine. -/
def fixCorruptedTransactionId (s : String) : Option String :=
  (fixCorruptedL s.data).map fun l => String.mk l

/-! ## Soundness of the repair strategies -/

theorem tryRun_sound {rest : List Char} {smin smax k : Nat} {suf : List Char}
    (h : tryRun rest smin smax k = some suf) :
    smin ≤ suf.length ∧ suf.length ≤ smax ∧ suf.all isUA = true := by
  induction k with
  | zero => simp [tryRun] at h
  | succ k ih =>
    rw [tryRun] at h
    split at h
    · simp at h
    · split at h
      · rename_i hc
        simp only [Bool.and_eq_true, decide_eq_true_eq] at hc
        cases h
        exact ⟨hc.1.1, hc.1.2, hc.2⟩
      · exact ih h

theorem tryPre_sound {s : List Char} {smin smax p : Nat} {pre suf : List Char} {c : Char}
    (h : tryPre s smin smax p = some (pre, c, suf)) :
    pre.all isUA = true ∧ isUA c = true ∧
      smin ≤ suf.length ∧ suf.length ≤ smax ∧ suf.all isUA = true := by
  rw [tryPre] at h
  split at h
  · rename_i hpre
    simp only [Bool.and_eq_true, beq_iff_eq] at hpre
    split at h
    · simp at h
    · rename_i c' rest hdrop
      split at h
      · rename_i hc
        split at h
        · rename_i suf' hrun
          cases h
          exact ⟨hpre.2, hc, (tryRun_sound hrun).1, (tryRun_sound hrun).2.1,
            (tryRun_sound hrun).2.2⟩
        · simp at h
      · simp at h
  · simp at h

theorem matchPattern1_sound {s pre suf : List Char} {c : Char}
    (h : matchPattern1 s = some (pre, c, suf)) :
    pre.all isUA = true ∧ isUA c = true ∧
      3 ≤ suf.length ∧ suf.length ≤ 6 ∧ suf.all isUA = true := by
  rw [matchPattern1] at h
  rcases h1 : tryPre s 3 6 6 with _ | v₁
  · rcases h2 : tryPre s 3 6 5 with _ | v₂
    · rcases h3 : tryPre s 3 6 4 with _ | v₃
      · rcases h4 : tryPre s 3 6 3 with _ | v₄
        · simp [h1, h2, h3, h4, Option.orElse] at h
        · simp [h1, h2, h3, h4, Option.orElse] at h
          subst h
          exact tryPre_sound h4
      · simp [h1, h2, h3, Option.orElse] at h
        subst h
        exact tryPre_sound h3
    · simp [h1, h2, Option.orElse] at h
      subst h
      exact tryPre_sound h2
  · simp [h1, Option.orElse] at h
    subst h
    exact tryPre_sound h1

theorem matchPattern2_sound {s pre suf : List Char} {c : Char}
    (h : matchPattern2 s = some (pre, c, suf)) :
    pre.all isUA = true ∧ isUA c = true ∧
      7 ≤ suf.length ∧ suf.length ≤ 10 ∧ suf.all isUA = true := by
  rw [matchPattern2] at h
  rcases h1 : tryPre s 7 10 3 with _ | v₁
  · rcases h2 : tryPre s 7 10 2 with _ | v₂
    · rcases h3 : tryPre s 7 10 1 with _ | v₃
      · simp [h1, h2, h3, Option.orElse] at h
      · simp [h1, h2, h3, Option.orElse] at h
        subst h
        exact tryPre_sound h3
    · simp [h1, h2, Option.orElse] at h
      subst h
      exact tryPre_sound h2
  · simp [h1, Option.orElse] at h
    subst h
    exact tryPre_sound h1

theorem pattern1_sound {s r : List Char} (h : pattern1 s = some r) :
    r.length = 13 ∧ r.all isUA = true := by
  rw [pattern1] at h
  split at h
  · simp at h
  · rename_i pre c suf heq
    split at h
    · cases h
      constructor <;> decide
    · split at h
      · rename_i hc
        simp only [Bool.and_eq_true, beq_iff_eq] at hc
        cases h
        exact ⟨hc.1, hc.2⟩
      · simp at h

theorem pattern2_sound {s r : List Char} (h : pattern2 s = some r) :
    r.length = 13 ∧ r.all isUA = true := by
  rw [pattern2] at h
  split at h
  · simp at h
  · rename_i pre c suf heq
    split at h
    · rename_i mid hfind
      split at h
      · rename_i hlen
        simp only [beq_iff_eq] at hlen
        cases h
        refine ⟨hlen, ?_⟩
        have hmid : mid ∈ commonMiddles := List.mem_of_find?_eq_some hfind
        have hmidUA : mid.all isUA = true := by
          have hAll : ∀ m ∈ commonMiddles, m.all isUA = true := by decide
          exact hAll mid hmid
        have hps := matchPattern2_sound heq
        simp only [List.all_append, Bool.and_eq_true]
        exact ⟨⟨hps.1, hmidUA⟩, hps.2.2.2.2⟩
      · simp at h
    · simp at h

theorem pattern3_length {s r : List Char} (h : pattern3 s = some r) :
    r.length = 13 := by
  rw [pattern3] at h
  split at h
  · split at h
    · rename_i hlen
      simp only [beq_iff_eq] at hlen
      cases h
      exact hlen
    · simp at h
  · simp at h

theorem pattern3_sound {s r : List Char} (hall : s.all isUA = true)
    (h : pattern3 s = some r) : r.length = 13 ∧ r.all isUA = true := by
  refine ⟨pattern3_length h, ?_⟩
  rw [pattern3] at h
  split at h
  · split at h
    · cases h
      simp only [List.all_cons, Bool.and_eq_true]
      refine ⟨by decide, by decide, ?_⟩
      rw [List.all_eq_true] at hall ⊢
      intro x hx
      exact hall x ((List.dropWhile_sublist _).subset hx)
    · simp at h
  · simp at h

theorem scan13Aux_sound {f : Nat} {l m : List Char} (h : m ∈ scan13Aux f l) :
    m.length = 13 ∧ m.all isUA = true := by
  induction f generalizing l with
  | zero => simp [scan13Aux] at h
  | succ f ih =>
    match l with
    | [] => simp [scan13Aux] at h
    | c :: t =>
      rw [scan13Aux] at h
      split at h
      · rename_i hc
        simp only [Bool.and_eq_true, beq_iff_eq] at hc
        rcases List.mem_cons.mp h with h | h
        · subst h
          exact hc
        · exact ih h
      · exact ih h

theorem pattern4_sound {s r : List Char} (h : pattern4 s = some r) :
    r.length = 13 ∧ r.all isUA = true := by
  have hm : r ∈ scan13 s := List.mem_of_find?_eq_some h
  exact scan13Aux_sound hm

theorem fixCorruptedL_length {s r : List Char} (h : fixCorruptedL s = some r) :
    r.length = 13 := by
  rw [fixCorruptedL] at h
  split at h
  · simp at h
  · rcases h1 : pattern1 s with _ | r₁
    · rcases h2 : pattern2 s with _ | r₂
      · rcases h3 : pattern3 s with _ | r₃
        · rcases h4 : pattern4 s with _ | r₄
          · simp [h1, h2, h3, h4, Option.orElse] at h
          · simp [h1, h2, h3, h4, Option.orElse] at h
            subst h
            exact (pattern4_sound h4).1
        · simp [h1, h2, h3, Option.orElse] at h
          subst h
          exact pattern3_length h3
      · simp [h1, h2, Option.orElse] at h
        subst h
        exact (pattern2_sound h2).1
    · simp [h1, Option.orElse] at h
      subst h
      exact (pattern1_sound h1).1

theorem fixCorruptedL_UA {s r : List Char} (hall : s.all isUA = true)
    (h : fixCorruptedL s = some r) : r.all isUA = true := by
  rw [fixCorruptedL] at h
  split at h
  · simp at h
  · rcases h1 : pattern1 s with _ | r₁
    · rcases h2 : pattern2 s with _ | r₂
      · rcases h3 : pattern3 s with _ | r₃
        · rcases h4 : pattern4 s with _ | r₄
          · simp [h1, h2, h3, h4, Option.orElse] at h
          · simp [h1, h2, h3, h4, Option.orElse] at h
            subst h
            exact (pattern4_sound h4).2
        · simp [h1, h2, h3, Option.orElse] at h
          subst h
          exact (pattern3_sound hall h3).2
      · simp [h1, h2, Option.orElse] at h
        subst h
        exact (pattern2_sound h2).2
    · simp [h1, Option.orElse] at h
      subst h
      exact (pattern1_sound h1).2

/-! ## Claim theorems for the repair engine -/

/-- C1 counterexample: on `"EEP8"` followed by twelve `'6'` characters and
`"NRJ4C"`, the repair function returns `none`, not the hard-coded
exception output `"EEP86556NRJ4C"`: the greedy prefix group of the
run-length regex matches `"EEP86"`, so the exception's `prefix === 'EEP8'`
test fails and every later strategy also fails. -/
theorem c1_repair_twelve_sixes_returns_none :
    fixCorruptedTransactionId ("EEP8" ++ String.mk (List.replicate 12 '6') ++ "NRJ4C")
      = none := by
  decide

/-- C1 (amended): the hard-coded historical exception fires for `"EEP8"`
followed by eleven `'6'` characters and `"NRJ4C"`, returning exactly
`"EEP86556NRJ4C"`. -/
theorem c1_repair_eleven_sixes_exception :
    fixCorruptedTransactionId ("EEP8" ++ String.mk (List.replicate 11 '6') ++ "NRJ4C")
      = some "EEP86556NRJ4C" := by
  decide

/-- C3: on any input decomposing as a 3–6 character `[A-Z0-9]` prefix, a
single `[A-Z0-9]` character repeated 11 or more times, and a 3–6 character
`[A-Z0-9]` suffix, the repair function returns either `none` or a string
of exactly 13 characters, all uppercase-alphanumeric. -/
theorem c3_repair_run_length_pattern_result_shape
    (pre suf : List Char) (c : Char) (n : Nat)
    (hpreUA : pre.all isUA = true) (_hpre3 : 3 ≤ pre.length) (_hpre6 : pre.length ≤ 6)
    (hc : isUA c = true) (_hn : 11 ≤ n)
    (hsufUA : suf.all isUA = true) (_hsuf3 : 3 ≤ suf.length) (_hsuf6 : suf.length ≤ 6) :
    fixCorruptedL (pre ++ List.replicate n c ++ suf) = none ∨
      ∃ r, fixCorruptedL (pre ++ List.replicate n c ++ suf) = some r ∧
        r.length = 13 ∧ r.all isUA = true := by
  rcases h : fixCorruptedL (pre ++ List.replicate n c ++ suf) with _ | r
  · exact Or.inl rfl
  · refine Or.inr ⟨r, rfl, fixCorruptedL_length h, ?_⟩
    have hall : (pre ++ List.replicate n c ++ suf).all isUA = true := by
      simp only [List.all_append, Bool.and_eq_true]
      refine ⟨⟨hpreUA, ?_⟩, hsufUA⟩
      rw [List.all_eq_true]
      intro x hx
      rw [List.eq_of_mem_replicate hx]
      exact hc
    exact fixCorruptedL_UA hall h

/-- C3 witness: an instantiation of the run-length-pattern shape theorem at
a concrete corrupted identifier. -/
theorem c3_repair_run_length_pattern_result_shape_witness :
    fixCorruptedL ("ABC".data ++ List.replicate 11 'Z' ++ "XYZ".data) = none ∨
      ∃ r, fixCorruptedL ("ABC".data ++ List.replicate 11 'Z' ++ "XYZ".data) = some r ∧
        r.length = 13 ∧ r.all isUA = true :=
  c3_repair_run_length_pattern_result_shape "ABC".data "XYZ".data 'Z' 11
    (by decide) (by decide) (by decide) (by decide) (by decide)
    (by decide) (by decide) (by decide)

/-- C4: the repair function returns `none` on every input shorter than 13
characters. -/
theorem c4_repair_short_input_returns_none (s : String) (h : s.length < 13) :
    fixCorruptedTransactionId s = none := by
  have h' : s.data.length < 13 := h
  rw [fixCorruptedTransactionId, fixCorruptedL, if_pos h']
  rfl

/-- C4 witness: the short-input theorem applied to the empty string. -/
theorem c4_repair_short_input_returns_none_witness :
    ("" : String).length < 13 ∧ fixCorruptedTransactionId "" = none :=
  ⟨by decide, c4_repair_short_input_returns_none "" (by decide)⟩

/-- C10: on every input string whatsoever, the repair function returns
either `none` or a string of exactly 13 characters (no code path can
return any other length). -/
theorem c10_repair_result_always_13_or_none (s : String) :
    fixCorruptedTransactionId s = none ∨
      ∃ r, fixCorruptedTransactionId s = some r ∧ r.length = 13 := by
  rcases h : fixCorruptedL s.data with _ | r
  · exact Or.inl (by rw [fixCorruptedTransactionId, h]; rfl)
  · refine Or.inr ⟨String.mk r, by rw [fixCorruptedTransactionId, h]; rfl, ?_⟩
    show r.length = 13
    exact fixCorruptedL_length h

/-! ## The store's run-length compression

`TransactionCache.compress` replaces every maximal run matched by
`/(.)\1+/g` whose length exceeds 3 by `char + length + char`;
`TransactionCache.decompress` replaces every match of `/(.)\d+\1/g` by the
character repeated the parsed count. -/

/-- Maximal runs of equal characters of a string, each with its length, in
order.  `/(.)\1+/g` matches exactly the maximal runs of length ≥ 2 of
non-line-terminator characters, so grouping into maximal runs captures the
global scan. -/
def runsOf (l : List Char) : List (Char × Nat) :=
  l.foldr (fun c rs =>
    match rs with
    | (c', n) :: rs' => if c == c' then (c', n + 1) :: rs' else (c, 1) :: (c', n) :: rs'
    | [] => [(c, 1)]) []

/-- Decimal digit character for `d < 10`. -/
def digitChar (d : Nat) : Char := Char.ofNat (48 + d)

/-- Fuel-driven decimal representation of a natural number (the result of
interpolating a JavaScript number into a template string). -/
def natDigitsAux : Nat → Nat → List Char → List Char
  | 0, n, acc => digitChar n :: acc
  | f + 1, n, acc =>
    if n < 10 then digitChar n :: acc
    else natDigitsAux f (n / 10) (digitChar (n % 10) :: acc)

/-- Decimal representation of a natural number. -/
def natDigits (n : Nat) : List Char := natDigitsAux n n []

/-- Reference recursion for the decimal representation, used in proofs. -/
def natDigitsRec (n : Nat) : List Char :=
  if n < 10 then [digitChar n] else natDigitsRec (n / 10) ++ [digitChar (n % 10)]
termination_by n
decreasing_by exact Nat.div_lt_self (by omega) (by omega)

/-- The numeric value of a decimal digit string, as `parseInt` computes it
on an all-digit input. -/
def parseDigits (l : List Char) : Nat :=
  l.foldl (fun a c => a * 10 + (c.toNat - 48)) 0

/-- Encoding of one maximal run by the compression replacer: runs of more
than 3 repetitions of a `.`-matchable character become
`char ++ decimal length ++ char`; every other run is kept verbatim. -/
def encRun : Char × Nat → List Char
  | (c, n) => if isDot c ∧ 3 < n then c :: natDigits n ++ [c] else List.replicate n c

/-- The body of `TransactionCache.compress` when compression is enabled:
`data.replace(/(.)\1+/g, m => m.length > 3 ? char + m.length + char : m)`. -/
def compressL (l : List Char) : List Char :=
  ((runsOf l).map encRun).flatten

/-- Greedy backtracking for `\d+` followed by the backreference `\1`, with
`t` the input just after the opening group-1 character `c`: the greedy
repetition tries the longest digit run first and counts down; a digit
count `d` succeeds when the character right after the `d` digits is `c`
again.  Returns the parsed repeat count and the input after the match. -/
def tryDigits (c : Char) (t : List Char) : Nat → Option (Nat × List Char)
  | 0 => none
  | k + 1 =>
    if t.get? (k + 1) == some c then some (parseDigits (t.take (k + 1)), t.drop (k + 2))
    else tryDigits c t k

/-- One attempted match of `/(.)\d+\1/` at the current position: the
group-1 character must not be a line terminator; then the digit run is
searched greedily. -/
def matchCountedRun (c : Char) (t : List Char) : Option (Nat × List Char) :=
  if isDot c then tryDigits c t (t.takeWhile isDigitC).length else none

/-- Fuel-driven left-to-right scan of the decompression replace: on a match
of `/(.)\d+\1/` emit the group-1 character repeated the parsed count and
continue after the match; otherwise keep the character and move right.
`fuel ≥ length` makes the scan total. -/
def decompAux : Nat → List Char → List Char
  | 0, l => l
  | _ + 1, [] => []
  | f + 1, c :: t =>
    match matchCountedRun c t with
    | some (count, rest) => List.replicate count c ++ decompAux f rest
    | none => c :: decompAux f t

/-- The body of `TransactionCache.decompress` when compression is enabled:
`data.replace(/(.)\d+\1/g, m => char.repeat(parseInt(m.slice(1, -1))))`. -/
def decompressL (l : List Char) : List Char :=
  decompAux l.length l

namespace TransactionCache

/-- Model of `TransactionCache.compress`: the identity when compression is disabled,
otherwise the run-length transform. -/
def compress (enableCompression : Bool) (data : String) : String :=
  if !enableCompression then data else String.mk (compressL data.data)

/-- Model of `TransactionCache.decompress`: the identity when compression is
disabled, otherwise the inverse scan. -/
def decompress (enableCompression : Bool) (data : String) : String :=
  if !enableCompression then data else String.mk (decompressL data.data)

end TransactionCache

/-! ## Roundtrip analysis of the compression -/

theorem decompAux_nil (f : Nat) : decompAux f [] = [] := by
  cases f <;> rfl

/-- Strings whose first character, if any, is not a decimal digit. -/
def headNotDigit : List Char → Prop
  | [] => True
  | c :: _ => isDigitC c = false

theorem headNotDigit_nil : headNotDigit [] := trivial

theorem takeWhile_digit_eq_nil {l : List Char} (h : headNotDigit l) :
    l.takeWhile isDigitC = [] := by
  cases l with
  | nil => rfl
  | cons c t =>
    simp only [headNotDigit] at h
    simp [List.takeWhile_cons, h]

theorem takeWhile_all_append {p : Char → Bool} {l1 l2 : List Char} {a : Char}
    (h1 : l1.all p = true) (h2 : p a = false) :
    (l1 ++ a :: l2).takeWhile p = l1 := by
  induction l1 with
  | nil => simp [List.takeWhile_cons, h2]
  | cons c t ih =>
    simp only [List.all_cons, Bool.and_eq_true] at h1
    simp [List.takeWhile_cons, h1.1, ih h1.2]

theorem digitChar_toNat {d : Nat} (h : d < 10) : (digitChar d).toNat = 48 + d := by
  have hv : (48 + d).isValidChar := Or.inl (by omega)
  rw [digitChar, Char.ofNat, dif_pos hv]
  rfl

theorem isDigitC_digitChar {d : Nat} (h : d < 10) : isDigitC (digitChar d) = true := by
  simp only [isDigitC, digitChar_toNat h, Bool.and_eq_true, decide_eq_true_eq]
  omega

theorem natDigitsRec_ne_nil (n : Nat) : natDigitsRec n ≠ [] := by
  rw [natDigitsRec]
  split <;> simp

theorem natDigitsRec_all (n : Nat) : (natDigitsRec n).all isDigitC = true := by
  induction n using Nat.strong_induction_on with
  | _ n ih =>
    rw [natDigitsRec]
    split
    · rename_i h
      simp [isDigitC_digitChar h]
    · rename_i h
      rw [List.all_append]
      have h1 := ih (n / 10) (Nat.div_lt_self (by omega) (by omega))
      have h2 := isDigitC_digitChar (Nat.mod_lt n (show 0 < 10 by omega))
      simp [h1, h2]

theorem parseDigits_natDigitsRec (n : Nat) : parseDigits (natDigitsRec n) = n := by
  induction n using Nat.strong_induction_on with
  | _ n ih =>
    rw [natDigitsRec]
    split
    · rename_i h
      simp only [parseDigits, List.foldl]
      rw [digitChar_toNat h]
      omega
    · rename_i h
      rw [parseDigits, List.foldl_append]
      have h1 := ih (n / 10) (Nat.div_lt_self (by omega) (by omega))
      rw [parseDigits] at h1
      rw [h1]
      simp only [List.foldl]
      rw [digitChar_toNat (Nat.mod_lt n (show 0 < 10 by omega))]
      omega

theorem natDigits_eq (n : Nat) : natDigits n = natDigitsRec n := by
  have key : ∀ f n, n ≤ f → ∀ acc : List Char, natDigitsAux f n acc = natDigitsRec n ++ acc := by
    intro f
    induction f with
    | zero =>
      intro n hn acc
      have hn0 : n = 0 := by omega
      subst hn0
      rw [natDigitsAux, natDigitsRec]
      simp
    | succ f ih =>
      intro n hn acc
      rw [natDigitsAux]
      split
      · rename_i hlt
        rw [natDigitsRec, if_pos hlt]
        simp
      · rename_i hge
        have hdiv : n / 10 < n := Nat.div_lt_self (by omega) (by omega)
        have hrec : natDigitsRec n = natDigitsRec (n / 10) ++ [digitChar (n % 10)] := by
          rw [natDigitsRec]
          exact if_neg hge
        rw [ih (n / 10) (by omega) (digitChar (n % 10) :: acc), hrec]
        simp
  have := key n n (le_refl n) []
  simpa [natDigits] using this

theorem natDigits_ne_nil (n : Nat) : natDigits n ≠ [] := by
  rw [natDigits_eq]
  exact natDigitsRec_ne_nil n

theorem natDigits_all (n : Nat) : (natDigits n).all isDigitC = true := by
  rw [natDigits_eq]
  exact natDigitsRec_all n

theorem parseDigits_natDigits (n : Nat) : parseDigits (natDigits n) = n := by
  rw [natDigits_eq]
  exact parseDigits_natDigitsRec n

theorem matchCountedRun_none {c : Char} {t : List Char} (h : headNotDigit t) :
    matchCountedRun c t = none := by
  rw [matchCountedRun]
  split
  · rw [takeWhile_digit_eq_nil h]
    rfl
  · rfl

/-- A literal (unencoded) run passes through the decompression scan
unchanged when its character is not a digit and the continuation does not
start with a digit. -/
theorem decompAux_literal (n : Nat) (c : Char) (R : List Char) (f : Nat)
    (hc : isDigitC c = false) (hR : headNotDigit R) :
    decompAux (n + f) (List.replicate n c ++ R) = List.replicate n c ++ decompAux f R := by
  induction n with
  | zero => simp
  | succ n ih =>
    have hhead : headNotDigit (List.replicate n c ++ R) := by
      cases n with
      | zero => simpa using hR
      | succ n =>
        rw [List.replicate_succ, List.cons_append]
        simpa [headNotDigit] using hc
    have hstep : decompAux (n + 1 + f) (List.replicate (n + 1) c ++ R)
        = c :: decompAux (n + f) (List.replicate n c ++ R) := by
      rw [List.replicate_succ, List.cons_append]
      have harith : n + 1 + f = (n + f) + 1 := by omega
      rw [harith, decompAux, matchCountedRun_none hhead]
    rw [hstep, ih, List.replicate_succ, List.cons_append]

/-- An encoded run `char ++ digits ++ char` is expanded back to the run by
the decompression scan in a single match step. -/
theorem decompAux_encoded (n : Nat) (c : Char) (R : List Char) (f : Nat)
    (hdot : isDot c = true) (hc : isDigitC c = false) :
    decompAux (f + 1) (c :: (natDigits n ++ c :: R)) = List.replicate n c ++ decompAux f R := by
  have hall : (natDigits n).all isDigitC = true := natDigits_all n
  have hne : natDigits n ≠ [] := natDigits_ne_nil n
  have htw : (natDigits n ++ c :: R).takeWhile isDigitC = natDigits n :=
    takeWhile_all_append hall hc
  obtain ⟨m, hm⟩ : ∃ m, (natDigits n).length = m + 1 := by
    cases hlen : (natDigits n).length with
    | zero => exact absurd (List.length_eq_zero.mp hlen) hne
    | succ m => exact ⟨m, rfl⟩
  have hget : ((natDigits n ++ c :: R).get? (m + 1) == some c) = true := by
    rw [← hm, List.get?_append_right (le_refl _)]
    simp
  have htake : (natDigits n ++ c :: R).take (m + 1) = natDigits n := by
    rw [← hm]
    exact List.take_left _ _
  have hdrop : (natDigits n ++ c :: R).drop (m + 2) = R := by
    have : m + 2 = (natDigits n).length + 1 := by omega
    rw [this, List.drop_append]
    rfl
  have hmc : matchCountedRun c (natDigits n ++ c :: R) = some (n, R) := by
    rw [matchCountedRun, if_pos hdot, htw, hm, tryDigits, if_pos hget, htake, hdrop,
      parseDigits_natDigits]
  rw [decompAux, hmc]

/-- Cost in scan steps of one encoded run: an encoded block is consumed in
one match step, a literal block in one step per character. -/
def runCost : Char × Nat → Nat
  | (c, n) => if isDot c ∧ 3 < n then 1 else n

theorem encRun_headNotDigit {c : Char} {n : Nat} {rest : List Char}
    (hc : isDigitC c = false) (hn : 1 ≤ n) :
    headNotDigit (encRun (c, n) ++ rest) := by
  rw [encRun]
  split
  · simpa [headNotDigit] using hc
  · obtain ⟨n', rfl⟩ : ∃ n', n = n' + 1 := ⟨n - 1, by omega⟩
    rw [List.replicate_succ, List.cons_append]
    simpa [headNotDigit] using hc

/-- Main block lemma: decompressing the concatenated encodings of runs of
non-digit characters recovers the runs. -/
theorem decompAux_blocks (rs : List (Char × Nat)) (R : List Char) (f : Nat)
    (hrs : ∀ p ∈ rs, 1 ≤ p.2 ∧ isDigitC p.1 = false)
    (hR : headNotDigit R) :
    decompAux ((rs.map runCost).sum + f) ((rs.map encRun).flatten ++ R)
      = (rs.map fun p => List.replicate p.2 p.1).flatten ++ decompAux f R := by
  induction rs with
  | nil => simp
  | cons p rs ih =>
    obtain ⟨c, n⟩ := p
    have hp := hrs (c, n) (List.mem_cons_self _ _)
    have hrs' : ∀ q ∈ rs, 1 ≤ q.2 ∧ isDigitC q.1 = false :=
      fun q hq => hrs q (List.mem_cons_of_mem _ hq)
    have hRnext : headNotDigit ((rs.map encRun).flatten ++ R) := by
      cases rs with
      | nil => simpa using hR
      | cons q rs' =>
        obtain ⟨c', n'⟩ := q
        have hq := hrs' (c', n') (List.mem_cons_self _ _)
        rw [List.map_cons, List.flatten_cons, List.append_assoc]
        exact encRun_headNotDigit hq.2 hq.1
    simp only [List.map_cons, List.flatten_cons, List.sum_cons]
    rw [List.append_assoc]
    by_cases hb : isDot c ∧ 3 < n
    · have henc : encRun (c, n) = c :: natDigits n ++ [c] := by
        rw [encRun, if_pos hb]
      have hcost : runCost (c, n) = 1 := by
        rw [runCost, if_pos hb]
      have hcd : isDigitC c = false := hp.2
      rw [henc, hcost]
      have hshape : (c :: natDigits n ++ [c]) ++ ((rs.map encRun).flatten ++ R)
          = c :: (natDigits n ++ c :: ((rs.map encRun).flatten ++ R)) := by
        simp
      rw [hshape]
      have harith : 1 + (rs.map runCost).sum + f = ((rs.map runCost).sum + f) + 1 := by
        omega
      rw [harith, decompAux_encoded n c _ _ hb.1 hcd, ih hrs']
      simp
    · have henc : encRun (c, n) = List.replicate n c := by
        rw [encRun, if_neg hb]
      have hcost : runCost (c, n) = n := by
        rw [runCost, if_neg hb]
      rw [henc, hcost, Nat.add_assoc, decompAux_literal n c _ _ hp.2 hRnext, ih hrs']
      simp

theorem runsOf_cons (c : Char) (t : List Char) :
    runsOf (c :: t) = match runsOf t with
      | (c', n) :: rs' => if c == c' then (c', n + 1) :: rs' else (c, 1) :: (c', n) :: rs'
      | [] => [(c, 1)] := rfl

theorem runsOf_flatten (l : List Char) :
    ((runsOf l).map fun p => List.replicate p.2 p.1).flatten = l := by
  induction l with
  | nil => rfl
  | cons c t ih =>
    rw [runsOf_cons]
    cases hr : runsOf t with
    | nil =>
      rw [hr] at ih
      simp only [List.map_nil, List.flatten_nil] at ih
      simp [← ih]
    | cons q rs' =>
      obtain ⟨c', n⟩ := q
      rw [hr] at ih
      by_cases hc : c == c'
      · have hceq : c = c' := by simpa using hc
        simp only [if_pos hc]
        simp only [List.map_cons, List.flatten_cons] at ih ⊢
        rw [List.replicate_succ, List.cons_append, ih, hceq]
      · simp only [if_neg hc]
        simp only [List.map_cons, List.flatten_cons] at ih ⊢
        rw [ih]
        simp

theorem runsOf_mem {l : List Char} {p : Char × Nat} (h : p ∈ runsOf l) :
    1 ≤ p.2 ∧ p.1 ∈ l := by
  induction l generalizing p with
  | nil => simp [runsOf] at h
  | cons c t ih =>
    rw [runsOf_cons] at h
    cases hr : runsOf t with
    | nil =>
      rw [hr] at h
      simp only [List.mem_singleton] at h
      subst h
      exact ⟨le_refl 1, List.mem_cons_self _ _⟩
    | cons q rs' =>
      obtain ⟨c', n⟩ := q
      rw [hr] at h
      by_cases hc : c == c'
      · simp only [hc, if_true] at h
        rcases List.mem_cons.mp h with h | h
        · subst h
          have := ih (p := (c', n)) (by rw [hr]; exact List.mem_cons_self _ _)
          exact ⟨by omega, List.mem_cons_of_mem _ this.2⟩
        · have := ih (p := p) (by rw [hr]; exact List.mem_cons_of_mem _ h)
          exact ⟨this.1, List.mem_cons_of_mem _ this.2⟩
      · simp only [if_neg hc] at h
        rcases List.mem_cons.mp h with h | h
        · subst h
          exact ⟨le_refl 1, List.mem_cons_self _ _⟩
        · have := ih (p := p) (by rw [hr]; exact h)
          exact ⟨this.1, List.mem_cons_of_mem _ this.2⟩

theorem runCost_le (p : Char × Nat) : runCost p ≤ (encRun p).length := by
  obtain ⟨c, n⟩ := p
  rw [runCost, encRun]
  split
  · simp
  · simp

theorem costSum_le (rs : List (Char × Nat)) :
    (rs.map runCost).sum ≤ ((rs.map encRun).flatten).length := by
  induction rs with
  | nil => simp
  | cons p rs ih =>
    simp only [List.map_cons, List.flatten_cons, List.sum_cons, List.length_append]
    exact Nat.add_le_add (runCost_le p) ih

/-- Decompressing the compression of a digit-free string recovers the
string. -/
theorem decompressL_compressL (l : List Char) (h : ∀ c ∈ l, isDigitC c = false) :
    decompressL (compressL l) = l := by
  have hrs : ∀ p ∈ runsOf l, 1 ≤ p.2 ∧ isDigitC p.1 = false := by
    intro p hp
    have hm := runsOf_mem hp
    exact ⟨hm.1, h p.1 hm.2⟩
  have hle := costSum_le (runsOf l)
  rw [decompressL, compressL]
  have heq : ((runsOf l).map encRun).flatten.length
      = ((runsOf l).map runCost).sum
        + (((runsOf l).map encRun).flatten.length - ((runsOf l).map runCost).sum) := by
    omega
  rw [heq]
  have hmain := decompAux_blocks (runsOf l)
    [] (((runsOf l).map encRun).flatten.length - ((runsOf l).map runCost).sum)
    hrs headNotDigit_nil
  rw [List.append_nil] at hmain
  rw [hmain, decompAux_nil, List.append_nil]
  exact runsOf_flatten l

/-! ## Claim theorems for the compression -/

/-- C2 counterexample: with compression enabled, the string `"a5a"` is left
unchanged by `compress` (no run longer than 3) but `decompress` expands it
to `"aaaaa"`, so `decompress(compress("a5a")) ≠ "a5a"`. -/
theorem c2_roundtrip_counterexample :
    TransactionCache.decompress true (TransactionCache.compress true "a5a") = "aaaaa" ∧
      ("aaaaa" : String) ≠ "a5a" := by
  constructor
  · decide
  · decide

/-- C2 (amended): `decompress(compress(x)) = x` holds for every string `x`
that contains no decimal digit character (for either value of the
compression flag); the counterexample `"a5a"` shows it fails for strings
that already contain a digit framed by equal characters. -/
theorem c2_decompress_compress_digit_free (b : Bool) (s : String)
    (h : ∀ c ∈ s.data, isDigitC c = false) :
    TransactionCache.decompress b (TransactionCache.compress b s) = s := by
  cases b with
  | false => rfl
  | true =>
    show String.mk (decompressL (compressL s.data)) = s
    rw [decompressL_compressL s.data h]

/-- C2 witness: the digit-free roundtrip theorem applied to a concrete
string containing a compressible run. -/
theorem c2_decompress_compress_digit_free_witness :
    (∀ c ∈ ("hello wonderful world!!!!" : String).data, isDigitC c = false) ∧
      TransactionCache.decompress true (TransactionCache.compress true
        "hello wonderful world!!!!") = "hello wonderful world!!!!" :=
  ⟨by decide, c2_decompress_compress_digit_free true "hello wonderful world!!!!" (by decide)⟩

/-! ## Transactions and JSON serialization

The cache's payloads are transaction lists.  `JSON.stringify` and
`JSON.parse` are host functions; they are embedded here restricted to the
value shapes this store actually serializes (transaction lists and cache
entries, with the object fields in the insertion order the source
constructs them).  `parseTx`/`parseTxList`/`parseEntry` return `none` for
every input outside that grammar, modelling a `JSON.parse` exception or a
shape mismatch. -/

structure Transaction where
  customer : String
  date : String
  amount : String
  transactionId : String
deriving DecidableEq

/-- Lower-case hexadecimal digit for `d < 16`. -/
def hexDig (d : Nat) : Char :=
  if d < 10 then Char.ofNat (48 + d) else Char.ofNat (87 + d)

/-- The value of a lower-case hexadecimal digit character. -/
def hexVal (c : Char) : Nat :=
  if c.toNat ≤ 57 then c.toNat - 48 else c.toNat - 87

/-- JSON.stringify's escaping of one string character: quote and backslash
escaped, the five named control escapes, `\u00XX` for other control
characters, everything else literal. -/
def jsonEscapeChar (c : Char) : List Char :=
  if c = '"' then ['\\', '"']
  else if c = '\\' then ['\\', '\\']
  else if c = '\x08' then ['\\', 'b']
  else if c = '\x0c' then ['\\', 'f']
  else if c = '\n' then ['\\', 'n']
  else if c = '\r' then ['\\', 'r']
  else if c = '\t' then ['\\', 't']
  else if c.toNat < 32 then ['\\', 'u', '0', '0', hexDig (c.toNat / 16), hexDig (c.toNat % 16)]
  else [c]

/-- A JSON string literal: quoted, characters escaped. -/
def quoteJson (s : List Char) : List Char :=
  '"' :: (s.map jsonEscapeChar).flatten ++ ['"']

/-- Result of `JSON.stringify` on one transaction record (fields in source
construction order). -/
def stringifyTx (t : Transaction) : List Char :=
  "\x7b\"customer\":".data ++ quoteJson t.customer.data
    ++ ",\"date\":".data ++ quoteJson t.date.data
    ++ ",\"amount\":".data ++ quoteJson t.amount.data
    ++ ",\"transactionId\":".data ++ quoteJson t.transactionId.data
    ++ "\x7d".data

/-- The comma-separated tail of a serialized transaction array. -/
def stringifyTxsTail : List Transaction → List Char
  | [] => []
  | t :: ts => ',' :: stringifyTx t ++ stringifyTxsTail ts

/-- Result of `JSON.stringify` on a transaction array. -/
def stringifyTxList : List Transaction → List Char
  | [] => "[]".data
  | t :: ts => '[' :: (stringifyTx t ++ stringifyTxsTail ts) ++ [']']

/-- Parser for the body of a JSON string literal (after the opening quote),
handling exactly the escapes `jsonEscapeChar` emits; returns the decoded
characters and the input after the closing quote. -/
def parseStrBody : List Char → Option (List Char × List Char)
  | [] => none
  | c :: rest =>
    if c = '"' then some ([], rest)
    else if c = '\\' then
      match rest with
      | [] => none
      | e :: r =>
        if e = '"' then (parseStrBody r).map fun p => ('"' :: p.1, p.2)
        else if e = '\\' then (parseStrBody r).map fun p => ('\\' :: p.1, p.2)
        else if e = 'b' then (parseStrBody r).map fun p => ('\x08' :: p.1, p.2)
        else if e = 'f' then (parseStrBody r).map fun p => ('\x0c' :: p.1, p.2)
        else if e = 'n' then (parseStrBody r).map fun p => ('\n' :: p.1, p.2)
        else if e = 'r' then (parseStrBody r).map fun p => ('\r' :: p.1, p.2)
        else if e = 't' then (parseStrBody r).map fun p => ('\t' :: p.1, p.2)
        else if e = 'u' then
          match r with
          | '0' :: '0' :: h1 :: h2 :: r2 =>
            (parseStrBody r2).map fun p => (Char.ofNat (16 * hexVal h1 + hexVal h2) :: p.1, p.2)
          | _ => none
        else none
    else (parseStrBody rest).map fun p => (c :: p.1, p.2)

/-- Parser for a JSON string literal including the opening quote. -/
def parseJsonString : List Char → Option (List Char × List Char)
  | '"' :: rest => parseStrBody rest
  | _ => none

/-- Consume an expected literal text from the input. -/
def expectLit (lit input : List Char) : Option (List Char) :=
  if lit.isPrefixOf input then some (input.drop lit.length) else none

/-- Parser for one serialized transaction object. -/
def parseTx (input : List Char) : Option (Transaction × List Char) :=
  (expectLit "\x7b\"customer\":".data input).bind fun r1 =>
  (parseJsonString r1).bind fun p1 =>
  (expectLit ",\"date\":".data p1.2).bind fun r3 =>
  (parseJsonString r3).bind fun p2 =>
  (expectLit ",\"amount\":".data p2.2).bind fun r5 =>
  (parseJsonString r5).bind fun p3 =>
  (expectLit ",\"transactionId\":".data p3.2).bind fun r7 =>
  (parseJsonString r7).bind fun p4 =>
  (expectLit "\x7d".data p4.2).map fun r9 =>
  (⟨String.mk p1.1, String.mk p2.1, String.mk p3.1, String.mk p4.1⟩, r9)

/-- Fuel-driven parser for the rest of a serialized transaction array after
one element has been consumed: either the closing bracket or a comma and
another element. -/
def parseTxsLoop : Nat → List Char → Option (List Transaction × List Char)
  | _, ']' :: rest => some ([], rest)
  | f + 1, ',' :: rest =>
    (parseTx rest).bind fun p =>
      (parseTxsLoop f p.2).map fun q => (p.1 :: q.1, q.2)
  | _, _ => none

/-- Parser for a serialized transaction array. -/
def parseTxList (input : List Char) : Option (List Transaction × List Char) :=
  if input.take 2 = ['[', ']'] then some ([], input.drop 2)
  else
    match input with
    | '[' :: rest =>
      (parseTx rest).bind fun p =>
        (parseTxsLoop p.2.length p.2).map fun q => (p.1 :: q.1, q.2)
    | _ => none

/-! ## Serialization roundtrip -/

theorem charOfNat_toNat {n : Nat} (h : n < 55296) : (Char.ofNat n).toNat = n := by
  have hv : n.isValidChar := Or.inl h
  rw [Char.ofNat, dif_pos hv]
  rfl

theorem hexVal_hexDig {d : Nat} (h : d < 16) : hexVal (hexDig d) = d := by
  rw [hexDig]
  split
  · rename_i h10
    rw [hexVal, charOfNat_toNat (by omega)]
    split
    · omega
    · rename_i hgt
      exfalso
      exact hgt (by omega)
  · rename_i h10
    rw [hexVal, charOfNat_toNat (by omega)]
    split
    · rename_i hle
      exfalso
      omega
    · omega

theorem parseStrBody_escape (s rest : List Char) :
    parseStrBody ((s.map jsonEscapeChar).flatten ++ '"' :: rest) = some (s, rest) := by
  induction s with
  | nil =>
    rw [parseStrBody.eq_def]
    simp
  | cons c s ih =>
    simp only [List.map_cons, List.flatten_cons, List.append_assoc]
    by_cases h1 : c = '"'
    · subst h1
      simp only [jsonEscapeChar, if_pos rfl, List.cons_append]
      rw [parseStrBody.eq_def]
      simp +decide [ih]
    · by_cases h2 : c = '\\'
      · subst h2
        rw [show jsonEscapeChar '\\' = ['\\', '\\'] from by simp +decide [jsonEscapeChar]]
        simp only [List.cons_append, List.nil_append]
        rw [parseStrBody.eq_def]
        simp +decide [ih]
      · by_cases h3 : c = '\x08'
        · subst h3
          rw [show jsonEscapeChar '\x08' = ['\\', 'b'] from by simp +decide [jsonEscapeChar]]
          simp only [List.cons_append, List.nil_append]
          rw [parseStrBody.eq_def]
          simp +decide [ih]
        · by_cases h4 : c = '\x0c'
          · subst h4
            rw [show jsonEscapeChar '\x0c' = ['\\', 'f'] from by simp +decide [jsonEscapeChar]]
            simp only [List.cons_append, List.nil_append]
            rw [parseStrBody.eq_def]
            simp +decide [ih]
          · by_cases h5 : c = '\n'
            · subst h5
              rw [show jsonEscapeChar '\n' = ['\\', 'n'] from by simp +decide [jsonEscapeChar]]
              simp only [List.cons_append, List.nil_append]
              rw [parseStrBody.eq_def]
              simp +decide [ih]
            · by_cases h6 : c = '\r'
              · subst h6
                rw [show jsonEscapeChar '\r' = ['\\', 'r'] from by simp +decide [jsonEscapeChar]]
                simp only [List.cons_append, List.nil_append]
                rw [parseStrBody.eq_def]
                simp +decide [ih]
              · by_cases h7 : c = '\t'
                · subst h7
                  rw [show jsonEscapeChar '\t' = ['\\', 't'] from by simp +decide [jsonEscapeChar]]
                  simp only [List.cons_append, List.nil_append]
                  rw [parseStrBody.eq_def]
                  simp +decide [ih]
                · by_cases h8 : c.toNat < 32
                  · simp only [jsonEscapeChar, if_neg h1, if_neg h2, if_neg h3, if_neg h4,
                      if_neg h5, if_neg h6, if_neg h7, if_pos h8, List.cons_append,
                      List.nil_append]
                    rw [parseStrBody.eq_def]
                    simp +decide [ih]
                    have hhi : hexVal (hexDig (c.toNat / 16)) = c.toNat / 16 :=
                      hexVal_hexDig (by omega)
                    have hlo : hexVal (hexDig (c.toNat % 16)) = c.toNat % 16 :=
                      hexVal_hexDig (by omega)
                    rw [hhi, hlo, show 16 * (c.toNat / 16) + c.toNat % 16 = c.toNat by omega,
                      Char.ofNat_toNat]
                  · simp only [jsonEscapeChar, if_neg h1, if_neg h2, if_neg h3, if_neg h4,
                      if_neg h5, if_neg h6, if_neg h7, if_neg h8, List.singleton_append]
                    rw [parseStrBody.eq_def]
                    simp [h1, h2, ih]

theorem parseJsonString_quote (s rest : List Char) :
    parseJsonString (quoteJson s ++ rest) = some (s, rest) := by
  rw [quoteJson]
  simp only [List.cons_append, List.append_assoc, List.singleton_append]
  rw [parseJsonString]
  exact parseStrBody_escape s rest

theorem isPrefixOf_self_append (l r : List Char) : l.isPrefixOf (l ++ r) = true := by
  induction l with
  | nil => simp [List.isPrefixOf]
  | cons c t ih => simp [List.isPrefixOf, ih]

theorem expectLit_append (lit rest : List Char) :
    expectLit lit (lit ++ rest) = some rest := by
  rw [expectLit, if_pos (isPrefixOf_self_append lit rest)]
  rw [List.drop_left]

theorem parseTx_stringify (t : Transaction) (rest : List Char) :
    parseTx (stringifyTx t ++ rest) = some (t, rest) := by
  obtain ⟨⟨cu⟩, ⟨da⟩, ⟨am⟩, ⟨ti⟩⟩ := t
  rw [stringifyTx, parseTx]
  simp only [List.append_assoc, expectLit_append, Option.some_bind, parseJsonString_quote,
    Option.map_some]
  rfl

theorem parseTxsLoop_stringify (ts : List Transaction) (rest : List Char) (f : Nat) :
    parseTxsLoop (ts.length + f) (stringifyTxsTail ts ++ ']' :: rest) = some (ts, rest) := by
  induction ts generalizing f with
  | nil =>
    rw [stringifyTxsTail, List.nil_append]
    simp only [List.length_nil, Nat.zero_add]
    cases f <;> rfl
  | cons t ts ih =>
    rw [stringifyTxsTail]
    have hsh : (',' :: stringifyTx t ++ stringifyTxsTail ts) ++ ']' :: rest
        = ',' :: (stringifyTx t ++ (stringifyTxsTail ts ++ ']' :: rest)) := by
      simp
    rw [hsh]
    have hlen : (t :: ts).length + f = (ts.length + f) + 1 := by
      simp only [List.length_cons]
      omega
    rw [hlen, parseTxsLoop, parseTx_stringify, Option.some_bind]
    show (parseTxsLoop (ts.length + f) (stringifyTxsTail ts ++ ']' :: rest)).map
        (fun q => (t :: q.1, q.2)) = some (t :: ts, rest)
    rw [ih f]
    rfl

theorem stringifyTx_head (t : Transaction) : ∃ Y, stringifyTx t = '\x7b' :: Y := by
  obtain ⟨cu, da, am, ti⟩ := t
  exact ⟨_, rfl⟩

theorem stringifyTxsTail_length (ts : List Transaction) :
    ts.length ≤ (stringifyTxsTail ts).length := by
  induction ts with
  | nil => simp [stringifyTxsTail]
  | cons t ts ih =>
    rw [stringifyTxsTail]
    simp only [List.length_cons, List.cons_append, List.length_append]
    omega

theorem parseTxList_stringify (l : List Transaction) (rest : List Char) :
    parseTxList (stringifyTxList l ++ rest) = some (l, rest) := by
  cases l with
  | nil => rfl
  | cons t ts =>
    rw [stringifyTxList]
    have hsh : ('[' :: (stringifyTx t ++ stringifyTxsTail ts) ++ [']']) ++ rest
        = '[' :: (stringifyTx t ++ (stringifyTxsTail ts ++ ']' :: rest)) := by
      simp
    rw [hsh]
    obtain ⟨Y, hY⟩ := stringifyTx_head t
    rw [parseTxList.eq_def]
    rw [if_neg (by rw [hY]; simp +decide)]
    rw [hY]
    simp only [List.cons_append]
    show (parseTx ('\x7b' :: (Y ++ (stringifyTxsTail ts ++ ']' :: rest)))).bind
        (fun p => (parseTxsLoop p.2.length p.2).map fun q => (p.1 :: q.1, q.2))
      = some (t :: ts, rest)
    rw [← List.cons_append, ← hY, parseTx_stringify, Option.some_bind]
    show (parseTxsLoop (stringifyTxsTail ts ++ ']' :: rest).length
        (stringifyTxsTail ts ++ ']' :: rest)).map (fun q => (t :: q.1, q.2))
      = some (t :: ts, rest)
    have hlen := stringifyTxsTail_length ts
    have hf : (stringifyTxsTail ts ++ ']' :: rest).length
        = ts.length + ((stringifyTxsTail ts ++ ']' :: rest).length - ts.length) := by
      simp only [List.length_append, List.length_cons]
      omega
    rw [hf, parseTxsLoop_stringify]
    rfl

/-! ## Cache entries and their serialization -/

/-- A cache entry as `TransactionCache.set` constructs it: deep-cloned
payload, write timestamp, source URL and content hash (the source's
optional `url`/`hash` fields are always populated by `set`). -/
structure CacheEntry where
  data : List Transaction
  timestamp : Nat
  url : String
  hash : String
deriving DecidableEq

/-- Result of `JSON.stringify` on a cache entry (fields in construction order). -/
def stringifyEntry (e : CacheEntry) : List Char :=
  "\x7b\"data\":".data ++ stringifyTxList e.data
    ++ ",\"timestamp\":".data ++ natDigits e.timestamp
    ++ ",\"url\":".data ++ quoteJson e.url.data
    ++ ",\"hash\":".data ++ quoteJson e.hash.data
    ++ "\x7d".data

/-- Parser for a serialized non-negative integer. -/
def parseNat (input : List Char) : Option (Nat × List Char) :=
  if (input.takeWhile isDigitC).length == 0 then none
  else some (parseDigits (input.takeWhile isDigitC), input.dropWhile isDigitC)

/-- Model of `JSON.parse` on a stored cache entry, specialized to the exact shape
`stringifyEntry` emits; `none` models both a parse exception and a shape
mismatch. -/
def parseEntry (input : List Char) : Option CacheEntry :=
  (expectLit "\x7b\"data\":".data input).bind fun r1 =>
  (parseTxList r1).bind fun p1 =>
  (expectLit ",\"timestamp\":".data p1.2).bind fun r3 =>
  (parseNat r3).bind fun p2 =>
  (expectLit ",\"url\":".data p2.2).bind fun r5 =>
  (parseJsonString r5).bind fun p3 =>
  (expectLit ",\"hash\":".data p3.2).bind fun r7 =>
  (parseJsonString r7).bind fun p4 =>
  (expectLit "\x7d".data p4.2).bind fun r9 =>
  if r9.isEmpty then some ⟨p1.1, p2.1, String.mk p3.1, String.mk p4.1⟩ else none

theorem dropWhile_all_append {p : Char → Bool} {l1 l2 : List Char} {a : Char}
    (h1 : l1.all p = true) (h2 : p a = false) :
    (l1 ++ a :: l2).dropWhile p = a :: l2 := by
  induction l1 with
  | nil => simp [List.dropWhile_cons, h2]
  | cons c t ih =>
    simp only [List.all_cons, Bool.and_eq_true] at h1
    simp [List.dropWhile_cons, h1.1, ih h1.2]

theorem parseNat_natDigits (n : Nat) (a : Char) (rest : List Char)
    (ha : isDigitC a = false) :
    parseNat (natDigits n ++ a :: rest) = some (n, a :: rest) := by
  rw [parseNat, takeWhile_all_append (natDigits_all n) ha,
    dropWhile_all_append (natDigits_all n) ha]
  rw [if_neg ?hne, parseDigits_natDigits]
  case hne =>
    intro hcon
    simp only [beq_iff_eq, List.length_eq_zero] at hcon
    exact natDigits_ne_nil n hcon

theorem parseNat_stream (n : Nat) (X : List Char) :
    parseNat (natDigits n ++ ([',', '"', 'u', 'r', 'l', '"', ':'] ++ X))
      = some (n, [',', '"', 'u', 'r', 'l', '"', ':'] ++ X) := by
  have h : ([',', '"', 'u', 'r', 'l', '"', ':'] : List Char) ++ X
      = ',' :: (['"', 'u', 'r', 'l', '"', ':'] ++ X) := rfl
  rw [h, parseNat_natDigits n ',' _ (by decide), ← h]

theorem parseEntry_stringify (e : CacheEntry) : parseEntry (stringifyEntry e) = some e := by
  obtain ⟨d, ts, ⟨u⟩, ⟨hh⟩⟩ := e
  rw [stringifyEntry, parseEntry]
  simp only [List.append_assoc, expectLit_append, Option.some_bind, parseTxList_stringify,
    parseNat_stream, parseJsonString_quote]
  rfl

/-- Embedding of the deep clone `JSON.parse(JSON.stringify(data))` that
`set` applies to its payload. -/
def deepCloneTxList (l : List Transaction) : List Transaction :=
  match parseTxList (stringifyTxList l) with
  | some p => p.1
  | none => []

/-- The JSON roundtrip clone is structurally the identity on transaction
lists. -/
theorem deepCloneTxList_eq (l : List Transaction) : deepCloneTxList l = l := by
  rw [deepCloneTxList]
  have h := parseTxList_stringify l []
  rw [List.append_nil] at h
  rw [h]

/-! ## The TransactionCache store

State: the in-memory `Map` tier and the persistent key-value tier, both as
insertion-ordered association lists (JavaScript `Map` iteration order and
`Object.keys` order for non-index string keys are insertion order, with
updates of an existing key keeping its position).  Time is passed
explicitly as `now` (epoch milliseconds); the host `new URL` parse is
abstracted as a parameter `urlPS` returning `pathname + search`, or `none`
when the constructor would throw. -/

/-- First-match lookup in an association list. -/
def lookupA {β : Type} (k : String) : List (String × β) → Option β
  | [] => none
  | (k', v) :: t => if k' = k then some v else lookupA k t

/-- Model of `Map.set` and the keyed storage write: update an existing key in place,
else append. -/
def mapSet {β : Type} (k : String) (v : β) : List (String × β) → List (String × β)
  | [] => [(k, v)]
  | (k', v') :: t => if k' = k then (k', v) :: t else (k', v') :: mapSet k v t

/-- Model of `Map.delete` and the storage remove: drop the (unique) binding of a key. -/
def eraseKey {β : Type} (k : String) : List (String × β) → List (String × β)
  | [] => []
  | (k', v) :: t => if k' = k then t else (k', v) :: eraseKey k t

/-- The two storage tiers of one `TransactionCache` instance. -/
structure CacheState where
  memoryCache : List (String × CacheEntry)
  storage : List (String × String)
deriving DecidableEq

/-- The constructor's option record (all fields optional). -/
structure StorageOptions where
  ttl : Option Nat
  maxEntries : Option Nat
  enableCompression : Option Bool

/-- Options after the constructor's defaulting. -/
structure ResolvedOptions where
  ttl : Nat
  maxEntries : Nat
  enableCompression : Bool
deriving DecidableEq

/-- The constant `defaultTTL = 10 * 60 * 1000` (10 minutes). -/
def defaultTTL : Nat := 10 * 60 * 1000

/-- The constant `maxMemoryEntries = 50`. -/
def maxMemoryEntries : Nat := 50

/-- The constant `storageKey = 'paytracker_cache'`. -/
def storageKey : String := "paytracker_cache"

/-- The constructor's defaulting with JavaScript falsiness (`||`): a
missing or zero ttl/maxEntries falls back to the default, a missing
compression flag to `false`. -/
def resolveOptions (o : StorageOptions) : ResolvedOptions where
  ttl := match o.ttl with
    | some t => if t = 0 then defaultTTL else t
    | none => defaultTTL
  maxEntries := match o.maxEntries with
    | some m => if m = 0 then maxMemoryEntries else m
    | none => maxMemoryEntries
  enableCompression := o.enableCompression.getD false

/-- Model of `isExpired`: `Date.now() - entry.timestamp > this.options.ttl` (the
resolved ttl is never zero, so the source's `|| defaultTTL` re-default is
the identity; with natural-number truncation a timestamp in the future
compares like the negative JavaScript difference, i.e. not expired). -/
def isExpired (opts : ResolvedOptions) (now : Nat) (e : CacheEntry) : Bool :=
  opts.ttl < now - e.timestamp

/-- ASCII letter-or-digit test for the fallback key sanitizer's class
`[^a-zA-Z0-9]`. -/
def isAsciiAlnum (c : Char) : Bool :=
  (65 ≤ c.toNat && c.toNat ≤ 90) || (97 ≤ c.toNat && c.toNat ≤ 122) ||
    (48 ≤ c.toNat && c.toNat ≤ 57)

/-- Model of `generateKey`: `pathname + search` of the parsed URL, or the
character-sanitized raw URL when `new URL` throws; `set` always passes a
(nonempty) content hash, which is appended after an underscore. -/
def generateKey (urlPS : String → Option String) (url : String) (contentHash : String) :
    String :=
  match urlPS url with
  | some ps => ps ++ "_" ++ contentHash
  | none =>
    String.mk (url.data.map fun c => if isAsciiAlnum c then c else '_') ++ "_" ++ contentHash

/-- One step of `generateContentHash`'s loop:
`hash = (hash << 5) - hash + charCode; hash = hash & hash` with JavaScript
32-bit signed wrap-around. -/
def toInt32 (x : Int) : Int :=
  if x % 4294967296 < 2147483648 then x % 4294967296 else x % 4294967296 - 4294967296

/-- Accumulate one character into the rolling hash. -/
def hashStep (h : Int) (c : Char) : Int :=
  toInt32 (toInt32 (h * 32) - h + c.toNat)

/-- Base-36 digit (`0-9a-z`). -/
def b36digit (d : Nat) : Char :=
  if d < 10 then Char.ofNat (48 + d) else Char.ofNat (87 + d)

/-- Fuel-driven `Number.prototype.toString(36)` for natural numbers. -/
def toBase36Aux : Nat → Nat → List Char → List Char
  | 0, n, acc => b36digit n :: acc
  | f + 1, n, acc =>
    if n < 36 then b36digit n :: acc
    else toBase36Aux f (n / 36) (b36digit (n % 36) :: acc)

/-- Composition `Math.abs(hash).toString(36)`. -/
def toBase36 (n : Nat) : List Char := toBase36Aux n n []

/-- Strict left fold of `hashStep` over the serialized payload (the
source's loop reassigns `hash` eagerly on every iteration; the case split
on the accumulator's constructor keeps the embedded fold's evaluation
shallow without changing its value). -/
def hashFold : Int → List Char → Int
  | h, [] => h
  | Int.ofNat n, c :: t => hashFold (hashStep (Int.ofNat n) c) t
  | Int.negSucc n, c :: t => hashFold (hashStep (Int.negSucc n) c) t

/-- Model of `generateContentHash`: the 32-bit rolling hash of the serialized
payload, rendered in base 36 after `Math.abs`. -/
def generateContentHash (data : List Transaction) : String :=
  String.mk (toBase36 (hashFold 0 (stringifyTxList data)).natAbs)

/-- Stable ascending insertion sort by timestamp: the observable result of
`entries.sort((a, b) => a[1].timestamp - b[1].timestamp)` (a stable sort
per the ECMAScript specification). -/
def insertByTs (p : String × CacheEntry) : List (String × CacheEntry) →
    List (String × CacheEntry)
  | [] => [p]
  | q :: t => if q.2.timestamp ≤ p.2.timestamp then q :: insertByTs p t else p :: q :: t

/-- Stable sort of the memory entries by ascending timestamp. -/
def sortByTs : List (String × CacheEntry) → List (String × CacheEntry)
  | [] => []
  | p :: t => insertByTs p (sortByTs t)

/-- The size-cap half of `cleanupMemoryCache`: when over the cap, delete
the oldest-by-timestamp entries (the first `size - maxEntries` of the
stable ascending sort). -/
def pruneMemory (maxEntries : Nat) (m1 : List (String × CacheEntry)) :
    List (String × CacheEntry) :=
  if maxEntries < m1.length then
    ((sortByTs m1).take (m1.length - maxEntries)).foldl (fun acc p => eraseKey p.1 acc) m1
  else m1

/-- Model of `cleanupMemoryCache`: drop expired entries, then enforce the size cap. -/
def cleanupMemoryCache (opts : ResolvedOptions) (now : Nat)
    (mem : List (String × CacheEntry)) : List (String × CacheEntry) :=
  pruneMemory opts.maxEntries (mem.filter fun p => !isExpired opts now p.2)

/-- JavaScript `x || dflt` for an optional string argument (empty string is
falsy). -/
def jsOrString (x : Option String) (dflt : String) : String :=
  match x with
  | some s => if s = "" then dflt else s
  | none => dflt

/-- Truthiness of the optional `url` argument (`!url`). -/
def urlTruthy (x : Option String) : Bool :=
  match x with
  | some s => !(s == "")
  | none => false

/-- Model of `TransactionCache.set`: resolve the URL, hash and deep-clone the
payload, stamp `now`, write to the memory tier, prune it, then write the
(optionally compressed) serialized entry to persistent storage under the
URL-specific key and the shared `_latest` key. -/
def TransactionCache.set (opts : ResolvedOptions) (urlPS : String → Option String)
    (st : CacheState) (now : Nat) (data : List Transaction) (urlArg : Option String)
    (envUrl : String) : CacheState :=
  let currentUrl := jsOrString urlArg envUrl
  let contentHash := generateContentHash data
  let key := generateKey urlPS currentUrl contentHash
  let entry : CacheEntry := ⟨deepCloneTxList data, now, currentUrl, contentHash⟩
  let compressed :=
    TransactionCache.compress opts.enableCompression (String.mk (stringifyEntry entry))
  { memoryCache := cleanupMemoryCache opts now (mapSet key entry st.memoryCache)
    storage := mapSet (storageKey ++ "_latest") compressed
      (mapSet (storageKey ++ "_" ++ key) compressed st.storage) }

/-- First non-expired, URL-matching entry of the memory tier, in insertion
order (`entry.url === currentUrl || !url`, then the expiry check). -/
def memFind (opts : ResolvedOptions) (now : Nat) (currentUrl : String) (urlT : Bool) :
    List (String × CacheEntry) → Option CacheEntry
  | [] => none
  | (_, e) :: t =>
    if (e.url == currentUrl || !urlT) && !isExpired opts now e then some e
    else memFind opts now currentUrl urlT t

/-- Substring test (`String.prototype.includes`). -/
def listInfix (needle : List Char) : List Char → Bool
  | [] => needle.isPrefixOf []
  | c :: t => needle.isPrefixOf (c :: t) || listInfix needle t

/-- Computes `url.split('?')[0]`. -/
def splitBeforeQuery (u : String) : List Char :=
  u.data.takeWhile fun c => !(c == '?')

/-- The persistent-tier keys owned by this store, in insertion order
(`getStorageKeys`). -/
def getStorageKeys (st : CacheState) : List String :=
  (st.storage.map Prod.fst).filter fun k => storageKey.data.isPrefixOf k.data

/-- Computes `key.replace(storageKey + '_', '')` for the keys this store writes
(which all start with that prefix). -/
def stripStoragePrefix (k : String) : String :=
  if (storageKey ++ "_").data.isPrefixOf k.data then
    String.mk (k.data.drop (storageKey.length + 1))
  else k

/-- The persistent-tier scan of `get`: for each owned key passing the
URL filter, decode and decompress the stored value; a parse failure is a
thrown exception, caught around the whole loop (`return null`), modelled
by stopping the scan; a hit re-populates the memory tier and returns. -/
def storageScan (opts : ResolvedOptions) (now : Nat) (currentUrl : String) (urlT : Bool)
    (stor : List (String × String)) : List String → Option (String × CacheEntry)
  | [] => none
  | k :: rest =>
    if (if urlT then listInfix (splitBeforeQuery currentUrl) k.data
        else storageKey.data.isPrefixOf k.data) then
      match lookupA k stor with
      | none => storageScan opts now currentUrl urlT stor rest
      | some v =>
        if v = "" then storageScan opts now currentUrl urlT stor rest
        else
          match parseEntry (TransactionCache.decompress opts.enableCompression v).data with
          | none => none
          | some e =>
            if !isExpired opts now e && (e.url == currentUrl || !urlT) then
              some (stripStoragePrefix k, e)
            else storageScan opts now currentUrl urlT stor rest
    else storageScan opts now currentUrl urlT stor rest

/-- Model of `TransactionCache.get`: memory tier first, then the persistent-tier
scan; a persistent hit is copied back into the memory tier.  Returns the
retrieved payload (or `none`) together with the updated state. -/
def TransactionCache.get (opts : ResolvedOptions) (st : CacheState) (now : Nat)
    (urlArg : Option String) (envUrl : String) :
    Option (List Transaction) × CacheState :=
  match memFind opts now (jsOrString urlArg envUrl) (urlTruthy urlArg) st.memoryCache with
  | some e => (some e.data, st)
  | none =>
    match storageScan opts now (jsOrString urlArg envUrl) (urlTruthy urlArg) st.storage
        (getStorageKeys st) with
    | some (k, e) => (some e.data, ⟨mapSet k e st.memoryCache, st.storage⟩)
    | none => (none, st)

/-- The persistent-tier sweep of `cleanup`: remove entries that are expired
or fail to decode. -/
def storageSweep (opts : ResolvedOptions) (now : Nat) :
    List String → List (String × String) → List (String × String)
  | [], stor => stor
  | k :: rest, stor =>
    match lookupA k stor with
    | none => storageSweep opts now rest stor
    | some v =>
      if v = "" then storageSweep opts now rest stor
      else
        match parseEntry (TransactionCache.decompress opts.enableCompression v).data with
        | none => storageSweep opts now rest (eraseKey k stor)
        | some e =>
          if isExpired opts now e then storageSweep opts now rest (eraseKey k stor)
          else storageSweep opts now rest stor

/-- Model of `TransactionCache.cleanup`: sweep both tiers. -/
def TransactionCache.cleanup (opts : ResolvedOptions) (st : CacheState) (now : Nat) :
    CacheState :=
  { memoryCache := cleanupMemoryCache opts now st.memoryCache
    storage := storageSweep opts now (getStorageKeys st) st.storage }

/-! ## Cache lemmas -/

theorem resolveOptions_maxEntries_pos (o : StorageOptions) :
    1 ≤ (resolveOptions o).maxEntries := by
  obtain ⟨t, m, c⟩ := o
  cases m with
  | none => simp [resolveOptions, maxMemoryEntries]
  | some m =>
    show 1 ≤ if m = 0 then maxMemoryEntries else m
    split
    · simp [maxMemoryEntries]
    · omega

theorem resolveOptions_ttl_pos (o : StorageOptions) : 1 ≤ (resolveOptions o).ttl := by
  obtain ⟨t, m, c⟩ := o
  cases t with
  | none => simp [resolveOptions, defaultTTL]
  | some t =>
    show 1 ≤ if t = 0 then defaultTTL else t
    split
    · simp [defaultTTL]
    · omega

theorem lookupA_mem {β : Type} {k : String} {v : β} {m : List (String × β)}
    (h : lookupA k m = some v) : (k, v) ∈ m := by
  induction m with
  | nil => simp [lookupA] at h
  | cons p t ih =>
    obtain ⟨k0, v0⟩ := p
    rw [lookupA] at h
    split at h
    · rename_i hk
      cases h
      subst hk
      exact List.mem_cons_self _ _
    · exact List.mem_cons_of_mem _ (ih h)

theorem mem_keys_mapSet {β : Type} {x k : String} {v : β} {m : List (String × β)} :
    x ∈ (mapSet k v m).map Prod.fst ↔ x ∈ m.map Prod.fst ∨ x = k := by
  induction m with
  | nil => simp [mapSet]
  | cons p t ih =>
    obtain ⟨k0, v0⟩ := p
    rw [mapSet]
    split
    · rename_i hk
      subst hk
      simp only [List.map_cons, List.mem_cons]
      tauto
    · simp only [List.map_cons, List.mem_cons, ih]
      tauto

theorem mapSet_keys_nodup {β : Type} (k : String) (v : β) (m : List (String × β))
    (h : (m.map Prod.fst).Nodup) : ((mapSet k v m).map Prod.fst).Nodup := by
  induction m with
  | nil => simp [mapSet]
  | cons p t ih =>
    obtain ⟨k0, v0⟩ := p
    rw [mapSet]
    split
    · simpa using h
    · rename_i hne
      simp only [List.map_cons, List.nodup_cons] at h ⊢
      refine ⟨?_, ih h.2⟩
      intro hcon
      rcases mem_keys_mapSet.mp hcon with hc | hc
      · exact h.1 hc
      · exact hne hc

theorem eraseKey_length {β : Type} {k : String} {m : List (String × β)}
    (h : k ∈ m.map Prod.fst) : (eraseKey k m).length + 1 = m.length := by
  induction m with
  | nil => simp at h
  | cons p t ih =>
    obtain ⟨k0, v0⟩ := p
    rw [eraseKey]
    by_cases hk : k0 = k
    · rw [if_pos hk]
      simp
    · rw [if_neg hk]
      simp only [List.map_cons, List.mem_cons] at h
      rcases h with h | h
      · exact absurd h.symm hk
      · have := ih h
        simp only [List.length_cons]
        omega

theorem mem_keys_eraseKey {β : Type} {k k' : String} {m : List (String × β)}
    (hne : k' ≠ k) (h : k' ∈ m.map Prod.fst) : k' ∈ (eraseKey k m).map Prod.fst := by
  induction m with
  | nil => simp at h
  | cons p t ih =>
    obtain ⟨k0, v0⟩ := p
    rw [eraseKey]
    simp only [List.map_cons, List.mem_cons] at h
    by_cases hk : k0 = k
    · rw [if_pos hk]
      rcases h with h | h
      · exact absurd (h.trans hk) hne
      · exact h
    · rw [if_neg hk]
      simp only [List.map_cons, List.mem_cons]
      rcases h with h | h
      · exact Or.inl h
      · exact Or.inr (ih h)

theorem foldl_eraseKey_length {β : Type} (K : List (String × β)) (m : List (String × β))
    (hnd : (K.map Prod.fst).Nodup) (hsub : ∀ p ∈ K, p.1 ∈ m.map Prod.fst) :
    (K.foldl (fun acc p => eraseKey p.1 acc) m).length = m.length - K.length := by
  induction K generalizing m with
  | nil => simp
  | cons p K ih =>
    rw [List.foldl_cons]
    simp only [List.map_cons, List.nodup_cons] at hnd
    have hpm : p.1 ∈ m.map Prod.fst := hsub p (List.mem_cons_self _ _)
    have hlen := eraseKey_length hpm
    have hsub' : ∀ q ∈ K, q.1 ∈ (eraseKey p.1 m).map Prod.fst := by
      intro q hq
      have hqn : q.1 ≠ p.1 := by
        intro hcon
        exact hnd.1 (hcon ▸ List.mem_map_of_mem Prod.fst hq)
      exact mem_keys_eraseKey hqn (hsub q (List.mem_cons_of_mem _ hq))
    rw [ih (eraseKey p.1 m) hnd.2 hsub']
    simp only [List.length_cons]
    omega

theorem insertByTs_perm (p : String × CacheEntry) (l : List (String × CacheEntry)) :
    (insertByTs p l).Perm (p :: l) := by
  induction l with
  | nil => exact List.Perm.refl _
  | cons q t ih =>
    rw [insertByTs]
    split
    · exact (List.Perm.cons q ih).trans (List.Perm.swap p q t)
    · exact List.Perm.refl _

theorem sortByTs_perm (l : List (String × CacheEntry)) : (sortByTs l).Perm l := by
  induction l with
  | nil => exact List.Perm.refl _
  | cons p t ih =>
    rw [sortByTs]
    exact (insertByTs_perm p (sortByTs t)).trans (List.Perm.cons p ih)

theorem pruneMemory_length (maxE : Nat) (m1 : List (String × CacheEntry))
    (hnd : (m1.map Prod.fst).Nodup) : (pruneMemory maxE m1).length ≤ maxE := by
  rw [pruneMemory]
  split
  · rename_i hgt
    have hperm : (sortByTs m1).Perm m1 := sortByTs_perm m1
    have hnds : ((sortByTs m1).map Prod.fst).Nodup := ((hperm.map Prod.fst).nodup_iff).mpr hnd
    have hndK : ((((sortByTs m1).take (m1.length - maxE)).map Prod.fst)).Nodup :=
      hnds.sublist ((List.take_sublist _ _).map Prod.fst)
    have hsub : ∀ p ∈ (sortByTs m1).take (m1.length - maxE), p.1 ∈ m1.map Prod.fst := by
      intro p hp
      exact List.mem_map_of_mem _ (hperm.mem_iff.mp (List.take_subset _ _ hp))
    rw [foldl_eraseKey_length _ m1 hndK hsub]
    have hlt : (sortByTs m1).length = m1.length := hperm.length_eq
    rw [List.length_take, hlt]
    omega
  · rename_i hle
    omega

theorem set_memory_le (opts : ResolvedOptions) (urlPS : String → Option String)
    (st : CacheState) (now : Nat) (d : List Transaction) (urlArg : Option String)
    (envUrl : String) (hw : (st.memoryCache.map Prod.fst).Nodup) :
    ((TransactionCache.set opts urlPS st now d urlArg envUrl).memoryCache).length
      ≤ opts.maxEntries := by
  simp only [TransactionCache.set, cleanupMemoryCache]
  apply pruneMemory_length
  have hms := mapSet_keys_nodup
    (generateKey urlPS (jsOrString urlArg envUrl) (generateContentHash d))
    (⟨deepCloneTxList d, now, jsOrString urlArg envUrl, generateContentHash d⟩ : CacheEntry)
    st.memoryCache hw
  exact hms.sublist ((List.filter_sublist _).map Prod.fst)

theorem memFind_sound {opts : ResolvedOptions} {now : Nat} {cu : String} {uT : Bool}
    {mem : List (String × CacheEntry)} {e : CacheEntry}
    (h : memFind opts now cu uT mem = some e) :
    isExpired opts now e = false ∧ ∃ k, (k, e) ∈ mem := by
  induction mem with
  | nil => simp [memFind] at h
  | cons p t ih =>
    obtain ⟨k0, e0⟩ := p
    rw [memFind] at h
    split at h
    · rename_i hc
      cases h
      simp only [Bool.and_eq_true, Bool.not_eq_true'] at hc
      exact ⟨hc.2, k0, List.mem_cons_self _ _⟩
    · obtain ⟨hex, k, hk⟩ := ih h
      exact ⟨hex, k, List.mem_cons_of_mem _ hk⟩

theorem storageScan_sound {opts : ResolvedOptions} {now : Nat} {cu : String} {uT : Bool}
    {stor : List (String × String)} {keys : List String} {k : String} {e : CacheEntry}
    (h : storageScan opts now cu uT stor keys = some (k, e)) :
    isExpired opts now e = false ∧ ∃ k' v, (k', v) ∈ stor ∧
      parseEntry (TransactionCache.decompress opts.enableCompression v).data = some e := by
  induction keys with
  | nil => simp [storageScan] at h
  | cons k0 rest ih =>
    rw [storageScan] at h
    by_cases hsc : (if uT = true then listInfix (splitBeforeQuery cu) k0.data
        else storageKey.data.isPrefixOf k0.data) = true
    · rw [if_pos hsc] at h
      rcases hl : lookupA k0 stor with _ | v
      · simp only [hl] at h
        exact ih h
      · simp only [hl] at h
        by_cases hv : v = ""
        · rw [if_pos hv] at h
          exact ih h
        · rw [if_neg hv] at h
          rcases hp : parseEntry (TransactionCache.decompress opts.enableCompression v).data
            with _ | e0
          · simp only [hp] at h
            simp at h
          · simp only [hp] at h
            by_cases hc : (!isExpired opts now e0 && (e0.url == cu || !uT)) = true
            · rw [if_pos hc] at h
              simp only [Option.some.injEq, Prod.mk.injEq] at h
              obtain ⟨hk, he⟩ := h
              subst he
              simp only [Bool.and_eq_true, Bool.not_eq_true'] at hc
              exact ⟨hc.1, k0, v, lookupA_mem hl, hp⟩
            · rw [if_neg hc] at h
              exact ih h
    · rw [if_neg hsc] at h
      exact ih h

/-! ## Claim theorems for the cache -/

/-- C5 counterexample: with an unexpired entry for the same URL already in
the memory tier, `set(d2, u)` followed immediately by `get(u)` returns the
older entry's payload, not `d2`: the memory scan returns the first
insertion-order match. -/
theorem c5_set_get_counterexample :
    (TransactionCache.get (resolveOptions ⟨none, none, none⟩)
        (TransactionCache.set (resolveOptions ⟨none, none, none⟩) (fun _ => none)
          (TransactionCache.set (resolveOptions ⟨none, none, none⟩) (fun _ => none)
            ⟨[], []⟩ 0 [⟨"A", "D", "X", "I"⟩] (some "u1") "default")
          1 [⟨"B", "D", "X", "I"⟩] (some "u1") "default")
        1 (some "u1") "default").fst
      = some [⟨"A", "D", "X", "I"⟩] ∧
    ([⟨"A", "D", "X", "I"⟩] : List Transaction) ≠ [⟨"B", "D", "X", "I"⟩] := by
  constructor
  · decide
  · decide

/-- C5 (amended): starting from an empty cache, `set(d, u)` followed
immediately by `get(u)` at the same clock reading returns a payload that
is structurally equal to `d` (the stored value is the JSON deep clone of
`d`, so the store never aliases the caller's object). -/
theorem c5_set_get_roundtrip_from_empty (o : StorageOptions)
    (urlPS : String → Option String) (now : Nat) (d : List Transaction) (u : String)
    (hu : u ≠ "") (envUrl : String) :
    (TransactionCache.get (resolveOptions o)
        (TransactionCache.set (resolveOptions o) urlPS ⟨[], []⟩ now d (some u) envUrl)
        now (some u) envUrl).fst = some d := by
  have hmax := resolveOptions_maxEntries_pos o
  have hcur : jsOrString (some u) envUrl = u := by simp [jsOrString, hu]
  have hexp : isExpired (resolveOptions o) now
      ⟨deepCloneTxList d, now, u, generateContentHash d⟩ = false := by
    simp [isExpired]
  simp only [TransactionCache.set, TransactionCache.get, hcur, mapSet, cleanupMemoryCache,
    List.filter_cons, List.filter_nil, hexp, Bool.not_false, if_true, pruneMemory]
  rw [if_neg (by simp; omega)]
  simp only [memFind, urlTruthy, hu]
  rw [if_pos (by simp [hexp, hu])]
  simp [deepCloneTxList_eq]

/-- C5 witness: the amended roundtrip theorem at a concrete payload and
URL. -/
theorem c5_set_get_roundtrip_from_empty_witness :
    (TransactionCache.get (resolveOptions ⟨none, none, none⟩)
        (TransactionCache.set (resolveOptions ⟨none, none, none⟩) (fun _ => none)
          ⟨[], []⟩ 7 [⟨"A", "D", "X", "I"⟩] (some "u1") "default")
        7 (some "u1") "default").fst = some [⟨"A", "D", "X", "I"⟩] :=
  c5_set_get_roundtrip_from_empty ⟨none, none, none⟩ (fun _ => none) 7
    [⟨"A", "D", "X", "I"⟩] "u1" (by decide) "default"

/-- C6: expiry policy of the store.  (1) An entry is expired exactly when
`now - timestamp > ttl`; (2) the constructor's default ttl is 600000 ms
(10 minutes); (3) `get` never returns an expired entry: a successful
read's payload is the payload of a non-expired entry of one of the two
tiers; (4) an entry written so that at read time `now - timestamp =
ttl + 1` is not returned by `get` and is removed from both tiers by
`cleanup()`. -/
theorem c6_expiry_policy :
    (∀ (opts : ResolvedOptions) (now : Nat) (e : CacheEntry),
      isExpired opts now e = true ↔ opts.ttl < now - e.timestamp)
    ∧ (∀ (mE : Option Nat) (cP : Option Bool),
        (resolveOptions ⟨none, mE, cP⟩).ttl = 600000)
    ∧ (∀ (opts : ResolvedOptions) (st : CacheState) (now : Nat) (urlArg : Option String)
        (envUrl : String) (r : List Transaction) (st' : CacheState),
        TransactionCache.get opts st now urlArg envUrl = (some r, st') →
        ∃ e : CacheEntry, isExpired opts now e = false ∧ e.data = r ∧
          ((∃ k, (k, e) ∈ st.memoryCache) ∨
            ∃ k v, (k, v) ∈ st.storage ∧
              parseEntry (TransactionCache.decompress opts.enableCompression v).data
                = some e))
    ∧ ((TransactionCache.get (resolveOptions ⟨some 1000, none, none⟩)
          (TransactionCache.set (resolveOptions ⟨some 1000, none, none⟩) (fun _ => none)
            ⟨[], []⟩ 0 [⟨"A", "D", "X", "I"⟩] (some "u1") "default")
          1001 (some "u1") "default").fst = none
        ∧ TransactionCache.cleanup (resolveOptions ⟨some 1000, none, none⟩)
            (TransactionCache.set (resolveOptions ⟨some 1000, none, none⟩) (fun _ => none)
              ⟨[], []⟩ 0 [⟨"A", "D", "X", "I"⟩] (some "u1") "default")
            1001 = ⟨[], []⟩) := by
  refine ⟨?_, ?_, ?_, ?_, ?_⟩
  · intro opts now e
    simp [isExpired]
  · intro mE cP
    rfl
  · intro opts st now urlArg envUrl r st' h
    rw [TransactionCache.get] at h
    rcases hm : memFind opts now (jsOrString urlArg envUrl) (urlTruthy urlArg) st.memoryCache
      with _ | e0
    · rw [hm] at h
      rcases hs : storageScan opts now (jsOrString urlArg envUrl) (urlTruthy urlArg)
          st.storage (getStorageKeys st) with _ | ke
      · rw [hs] at h
        simp at h
      · obtain ⟨k0, e0⟩ := ke
        rw [hs] at h
        simp only [Prod.mk.injEq, Option.some.injEq] at h
        obtain ⟨hr, hst⟩ := h
        obtain ⟨hex, hsrc⟩ := storageScan_sound hs
        exact ⟨e0, hex, hr, Or.inr hsrc⟩
    · rw [hm] at h
      simp only [Prod.mk.injEq, Option.some.injEq] at h
      obtain ⟨hr, hst⟩ := h
      obtain ⟨hex, hsrc⟩ := memFind_sound hm
      exact ⟨e0, hex, hr, Or.inl hsrc⟩
  · decide
  · decide

/-- C6 witness: the never-returns-expired part of the expiry-policy theorem
applied to a concrete fresh write read back at the same clock reading. -/
theorem c6_expiry_policy_witness :
    ∃ e : CacheEntry,
      isExpired (resolveOptions ⟨none, none, none⟩) 7 e = false ∧
      e.data = [⟨"A", "D", "X", "I"⟩] ∧
      ((∃ k, (k, e) ∈ (TransactionCache.set (resolveOptions ⟨none, none, none⟩)
          (fun _ => none) ⟨[], []⟩ 7 [⟨"A", "D", "X", "I"⟩] (some "u1")
          "default").memoryCache) ∨
        ∃ k v, (k, v) ∈ (TransactionCache.set (resolveOptions ⟨none, none, none⟩)
            (fun _ => none) ⟨[], []⟩ 7 [⟨"A", "D", "X", "I"⟩] (some "u1")
            "default").storage ∧
          parseEntry (TransactionCache.decompress
            (resolveOptions ⟨none, none, none⟩).enableCompression v).data = some e) :=
  c6_expiry_policy.2.2.1 (resolveOptions ⟨none, none, none⟩)
    (TransactionCache.set (resolveOptions ⟨none, none, none⟩) (fun _ => none)
      ⟨[], []⟩ 7 [⟨"A", "D", "X", "I"⟩] (some "u1") "default")
    7 (some "u1") "default" [⟨"A", "D", "X", "I"⟩]
    (TransactionCache.set (resolveOptions ⟨none, none, none⟩) (fun _ => none)
      ⟨[], []⟩ 7 [⟨"A", "D", "X", "I"⟩] (some "u1") "default")
    (by decide)

/-- C7: the memory-tier size cap.  (1) After every `set`, the memory tier
holds at most `maxEntries` entries (for any well-formed prior state);
(2) from an empty cache with `maxEntries = 2`, three distinct non-expired
writes at strictly increasing timestamps leave exactly the two newest
entries in insertion order — precisely the single oldest-by-timestamp
entry is evicted. -/
theorem c7_memory_cap_and_oldest_eviction :
    (∀ (o : StorageOptions) (urlPS : String → Option String) (st : CacheState) (now : Nat)
        (d : List Transaction) (urlArg : Option String) (envUrl : String),
      (st.memoryCache.map Prod.fst).Nodup →
      ((TransactionCache.set (resolveOptions o) urlPS st now d urlArg
          envUrl).memoryCache).length ≤ (resolveOptions o).maxEntries)
    ∧ ((TransactionCache.set (resolveOptions ⟨none, some 2, none⟩) (fun _ => none)
          (TransactionCache.set (resolveOptions ⟨none, some 2, none⟩) (fun _ => none)
            (TransactionCache.set (resolveOptions ⟨none, some 2, none⟩) (fun _ => none)
              ⟨[], []⟩ 0 [⟨"A", "D", "X", "I"⟩] (some "u1") "d")
            1 [⟨"B", "D", "X", "I"⟩] (some "u2") "d")
          2 [⟨"C", "D", "X", "I"⟩] (some "u3") "d").memoryCache
        = [(generateKey (fun _ => none) "u2" (generateContentHash [⟨"B", "D", "X", "I"⟩]),
            ⟨[⟨"B", "D", "X", "I"⟩], 1, "u2", generateContentHash [⟨"B", "D", "X", "I"⟩]⟩),
           (generateKey (fun _ => none) "u3" (generateContentHash [⟨"C", "D", "X", "I"⟩]),
            ⟨[⟨"C", "D", "X", "I"⟩], 2, "u3",
              generateContentHash [⟨"C", "D", "X", "I"⟩]⟩)]) := by
  constructor
  · intro o urlPS st now d urlArg envUrl hw
    exact set_memory_le (resolveOptions o) urlPS st now d urlArg envUrl hw
  · decide

/-- C7 witness: the cap conjunct applied to a concrete write into an empty
cache. -/
theorem c7_memory_cap_and_oldest_eviction_witness :
    ((TransactionCache.set (resolveOptions ⟨none, some 2, none⟩) (fun _ => none)
        ⟨[], []⟩ 0 [⟨"A", "D", "X", "I"⟩] (some "u1") "d").memoryCache).length
      ≤ (resolveOptions ⟨none, some 2, none⟩).maxEntries :=
  c7_memory_cap_and_oldest_eviction.1 ⟨none, some 2, none⟩ (fun _ => none) ⟨[], []⟩ 0
    [⟨"A", "D", "X", "I"⟩] (some "u1") "d" (by decide)

/-! ## The page extractor

A DOM snapshot is abstracted as the list of matched transaction containers
(in document order, as `querySelectorAll` yields them), each carrying the
results of the host DOM queries the extractor performs: the text contents
of the subtitle-typed paragraph nodes, the amount node's text, the anchor
element (if any) with its href, text and attribute values, and the
container's full text.  An extraction method that throws inside the page
is, through the surrounding `try/catch` (which only logs), equivalent to
one yielding no value and is modelled as an absent result. -/

/-- The anchor element `a.sc-goYhtw.bhMCZg` of a container, as the
extractor queries it. -/
structure PageAnchor where
  href : Option String
  textContent : Option String
  innerText : Option String
  treeWalkText : String
  dataId : Option String
  idAttr : Option String
  valueAttr : Option String
deriving DecidableEq

/-- One matched transaction container. -/
structure PageContainer where
  subtitleTexts : List (Option String)
  amountText : Option String
  anchor : Option PageAnchor
  containerText : String
deriving DecidableEq

/-- ECMAScript white space and line terminators, as trimmed by
`String.prototype.trim`. -/
def isJsSpace (c : Char) : Bool :=
  c.toNat == 9 || c.toNat == 10 || c.toNat == 11 || c.toNat == 12 || c.toNat == 13 ||
    c.toNat == 32 || c.toNat == 160 || c.toNat == 0x1680 ||
    (0x2000 ≤ c.toNat && c.toNat ≤ 0x200A) || c.toNat == 0x2028 || c.toNat == 0x2029 ||
    c.toNat == 0x202F || c.toNat == 0x205F || c.toNat == 0x3000 || c.toNat == 0xFEFF

/-- Model of `String.prototype.trim`. -/
def jsTrim (s : String) : String :=
  String.mk (((s.data.dropWhile isJsSpace).reverse.dropWhile isJsSpace).reverse)

/-- Leftmost match of the unanchored regex `/([A-Z0-9]{13})/`. -/
def firstRun13 : List Char → Option (List Char)
  | [] => none
  | c :: t =>
    if ((c :: t).take 13).length == 13 && ((c :: t).take 13).all isUA then
      some ((c :: t).take 13)
    else firstRun13 t

/-- JavaScript `x || y` on optional strings (absent and empty are falsy). -/
def jsOrOpt (x y : Option String) : Option String :=
  match x with
  | some s => if s = "" then y else some s
  | none => y

/-- Computes `customerElements[i]?.textContent?.trim()`. -/
def subtitleText (c : PageContainer) (i : Nat) : Option String :=
  match c.subtitleTexts.get? i with
  | some (some s) => some (jsTrim s)
  | _ => none

/-- Computes `text.length === 13 && /^[A-Z0-9]+$/.test(text)`. -/
def isClean13 (s : String) : Bool :=
  s.data.length == 13 && s.data.all isUA

/-- The method-2 loop of the identifier extraction: skip falsy extraction
results; accept a clean 13-character token immediately, otherwise accept a
successful repair; on both failures move to the next method. -/
def tryMethods : List (Option String) → Option String
  | [] => none
  | m :: rest =>
    match m with
    | none => tryMethods rest
    | some t =>
      if t = "" then tryMethods rest
      else if isClean13 t then some t
      else
        match fixCorruptedTransactionId t with
        | some clean => some clean
        | none => tryMethods rest

/-- The method-3 fallback: first 13-character `[A-Z0-9]` run of the whole
container text without a 6-or-longer repeated-character run. -/
def containerScan (c : PageContainer) : Option String :=
  ((scan13 c.containerText.data).find? fun m => !hasRun6 m).map fun l => String.mk l

/-- The identifier extraction escalation: href scan, then the four text
extraction methods with repair, then the container-wide scan; every
failure leaves the sentinel `"N/A"`.  Without an anchor element nothing
runs and the sentinel stands. -/
def extractTransactionId (c : PageContainer) : String :=
  match c.anchor with
  | none => "N/A"
  | some a =>
    match (if jsOrString a.href "" == "" then none
           else firstRun13 (jsOrString a.href "").data) with
    | some id => String.mk id
    | none =>
      match tryMethods [a.textContent.map jsTrim, a.innerText.map jsTrim,
          some (jsTrim a.treeWalkText), jsOrOpt a.dataId (jsOrOpt a.idAttr a.valueAttr)] with
      | some id => id
      | none =>
        match containerScan c with
        | some id => id
        | none => "N/A"

/-- The per-container record extraction of
`extractTransactionDataFromPage`. -/
def extractRecord (c : PageContainer) : Transaction where
  customer := jsOrString (subtitleText c 0) "No customer selected"
  date := jsOrString (subtitleText c 1) "N/A"
  amount := jsOrString (c.amountText.map jsTrim) "N/A"
  transactionId := extractTransactionId c

/-- Model of `extractTransactionDataFromPage`: one record per matched container, in
document order. -/
def extractTransactionDataFromPage (containers : List PageContainer) : List Transaction :=
  containers.map extractRecord

/-! ## The extraction orchestrator -/

/-- A browser tab as `chrome.tabs.query` reports it. -/
structure ChromeTab where
  id : Option Nat
  url : Option String
  title : Option String
deriving DecidableEq

/-- Model of `String.prototype.toLowerCase` (ASCII range). -/
def toLowerJs (s : String) : String :=
  String.mk (s.data.map Char.toLower)

/-- The detached-mode preference predicate:
`t.url && (t.url.includes('paytracker') || t.url.includes('app.') ||
t.title?.toLowerCase().includes('paytracker'))`. -/
def matchesPayTracker (t : ChromeTab) : Bool :=
  match t.url with
  | none => false
  | some u =>
    !(u == "") &&
      (listInfix "paytracker".data u.data || listInfix "app.".data u.data ||
        (match t.title with
         | some ti => listInfix "paytracker".data (toLowerJs ti).data
         | none => false))

/-- The fallback filter: `t.url && !t.url.startsWith('chrome-extension://')`. -/
def isRegularTab (t : ChromeTab) : Bool :=
  match t.url with
  | none => false
  | some u => !(u == "") && !("chrome-extension://".data.isPrefixOf u.data)

/-- Tab resolution: embedded mode uses the active tab; detached mode scans
all tabs for a PayTracker match, else falls back to the last (most
recent) non-extension tab. -/
def resolveTab (isDetachedWindow : Bool) (allTabs : List ChromeTab)
    (activeTab : Option ChromeTab) : Option ChromeTab :=
  if isDetachedWindow then
    match allTabs.find? matchesPayTracker with
    | some t => some t
    | none => (allTabs.filter isRegularTab).getLast?
  else activeTab

/-- Model of `extractTransactionData`: resolve a tab; without a tab carrying a
truthy id (`!tab?.id`, so a missing tab, a missing id, and id `0` all
fail), reject with the no-target-tab error; otherwise inject the page
extractor and return its serialized result (`results[0]?.result || []`),
passed here as `injectionResult`. -/
def extractTransactionData (isDetachedWindow : Bool) (allTabs : List ChromeTab)
    (activeTab : Option ChromeTab) (injectionResult : Option (List Transaction)) :
    Except String (List Transaction) :=
  match resolveTab isDetachedWindow allTabs activeTab with
  | some tb =>
    match tb.id with
    | some i =>
      if i == 0 then Except.error "No suitable tab found for data extraction"
      else Except.ok (injectionResult.getD [])
    | none => Except.error "No suitable tab found for data extraction"
  | none => Except.error "No suitable tab found for data extraction"

/-- C8: shape of the page extractor's result.  (1) The result is the
per-container map, so there is exactly one record per matched container;
(2) its length equals the number of containers; (3) zero matched
containers yield the empty list, not an error; (4) records appear in
document order: the i-th record is the extraction of the i-th container;
(5) missing fields become their sentinels: a missing (or blank) first
subtitle gives `"No customer selected"`, a missing second subtitle or
amount gives `"N/A"`, and a container without an anchor element keeps
`transactionId = "N/A"`.  All extraction functions are total, so no
per-record failure can abort the extraction. -/
theorem c8_extractor_one_record_per_container :
    (∀ containers : List PageContainer,
      extractTransactionDataFromPage containers = containers.map extractRecord)
    ∧ (∀ containers : List PageContainer,
        (extractTransactionDataFromPage containers).length = containers.length)
    ∧ extractTransactionDataFromPage [] = []
    ∧ (∀ (containers : List PageContainer) (i : Nat) (h : i < containers.length),
        (extractTransactionDataFromPage containers).get? i
          = some (extractRecord (containers.get ⟨i, h⟩)))
    ∧ (∀ c : PageContainer,
        (subtitleText c 0 = none ∨ subtitleText c 0 = some "" →
          (extractRecord c).customer = "No customer selected")
        ∧ (subtitleText c 1 = none ∨ subtitleText c 1 = some "" →
          (extractRecord c).date = "N/A")
        ∧ (c.amountText = none → (extractRecord c).amount = "N/A")
        ∧ (c.anchor = none → (extractRecord c).transactionId = "N/A")) := by
  refine ⟨fun containers => rfl, fun containers => by
    simp [extractTransactionDataFromPage], rfl, ?_, ?_⟩
  · intro containers i h
    rw [extractTransactionDataFromPage, List.get?_map, List.get?_eq_get h]
    rfl
  · intro c
    refine ⟨?_, ?_, ?_, ?_⟩
    · intro hc
      show jsOrString (subtitleText c 0) "No customer selected" = "No customer selected"
      rcases hc with hc | hc <;> rw [hc] <;> simp [jsOrString]
    · intro hc
      show jsOrString (subtitleText c 1) "N/A" = "N/A"
      rcases hc with hc | hc <;> rw [hc] <;> simp [jsOrString]
    · intro hc
      show jsOrString (c.amountText.map jsTrim) "N/A" = "N/A"
      rw [hc]
      rfl
    · intro hc
      show extractTransactionId c = "N/A"
      rw [extractTransactionId, hc]

/-- C8 witness: the order and sentinel parts of the extractor-shape theorem
at a concrete one-container snapshot with every field missing. -/
theorem c8_extractor_one_record_per_container_witness :
    (extractTransactionDataFromPage [⟨[], none, none, ""⟩]).get? 0
      = some (extractRecord ⟨[], none, none, ""⟩)
    ∧ (extractRecord (⟨[], none, none, ""⟩ : PageContainer)).customer
      = "No customer selected"
    ∧ (extractRecord (⟨[], none, none, ""⟩ : PageContainer)).transactionId = "N/A" :=
  ⟨c8_extractor_one_record_per_container.2.2.2.1 [⟨[], none, none, ""⟩] 0 (by decide),
   (c8_extractor_one_record_per_container.2.2.2.2 ⟨[], none, none, ""⟩).1
     (Or.inl (by decide)),
   (c8_extractor_one_record_per_container.2.2.2.2 ⟨[], none, none, ""⟩).2.2.2 rfl⟩

/-- C9: when tab resolution finds no suitable tab, the orchestrator fails
with the no-target-tab error rather than returning records.  Embedded
mode: no active tab, or an active tab without an id; detached mode: no
PayTracker-matching tab and no non-extension fallback tab. -/
theorem c9_no_target_tab_error :
    (∀ (allTabs : List ChromeTab) (activeTab : Option ChromeTab)
        (res : Option (List Transaction)),
      (activeTab = none ∨ ∃ tb, activeTab = some tb ∧ tb.id = none) →
      extractTransactionData false allTabs activeTab res
        = Except.error "No suitable tab found for data extraction")
    ∧ (∀ (allTabs : List ChromeTab) (activeTab : Option ChromeTab)
        (res : Option (List Transaction)),
      allTabs.find? matchesPayTracker = none →
      allTabs.filter isRegularTab = [] →
      extractTransactionData true allTabs activeTab res
        = Except.error "No suitable tab found for data extraction") := by
  constructor
  · intro allTabs activeTab res h
    rcases h with h | ⟨tb, htb, hid⟩
    · rw [extractTransactionData, resolveTab, if_neg (by simp), h]
    · rw [extractTransactionData, resolveTab, if_neg (by simp), htb]
      simp only [hid]
  · intro allTabs activeTab res hfind hfilter
    rw [extractTransactionData, resolveTab, if_pos rfl, hfind, hfilter]
    rfl

/-- C9 witness: both conjuncts of the no-target-tab theorem at concrete
tab states (no active tab; an empty tab list). -/
theorem c9_no_target_tab_error_witness :
    extractTransactionData false [] none none
        = Except.error "No suitable tab found for data extraction"
    ∧ extractTransactionData true [] none none
        = Except.error "No suitable tab found for data extraction" :=
  ⟨c9_no_target_tab_error.1 [] none none (Or.inl rfl),
   c9_no_target_tab_error.2 [] none none rfl rfl⟩

end PayTracker

